import Mathlib

/-!
# Verification development for the linker-driver dependency tracker and the
# bundled sequence algorithms

Shallow embedding of

* `lld/MachO/Driver.h`: `DependencyTracker` (`logFileNotFound`, `DepOpCode`, `write`),
  `findPathCombination`, `resolveDylibPath`;
* `libcxx/include/__algorithm/merge.h`: `__merge`, `merge`;
* `libcxx/include/__algorithm/shift.h`: `shift_left`, `shift_right`;
* `libcxx/include/__iterator/advance.h`: `ranges::advance` (the three call operators of
  `ranges::__advance_fn`).

Conventions.  A `std::string` is the list of its bytes, ordered as `std::less<std::string>`
orders it (lexicographically, byte by byte, a proper prefix first).  A `std::set<std::string>`
is the list of its elements in iteration order.  An iterator into a sequence is the index of
the element it points at.
-/

namespace Lld

/-! ## Strings -/

/-- A `std::string` / `llvm::StringRef` value: its bytes. -/
abbrev StdString := List (Fin 256)

/-- The byte string of an ASCII literal. -/
def str (s : String) : StdString := s.toList.map (fun c => Fin.ofNat c.toNat)

/-- An `llvm::Twine`: a concatenation tree over string pieces. -/
inductive Twine where
  | leaf : StdString → Twine
  | concat : Twine → Twine → Twine

/-- `Twine::str()`: the flattened string. -/
def Twine.str : Twine → StdString
  | .leaf s => s
  | .concat l r => l.str ++ r.str

/-! ## `std::set<std::string>` -/

/-- `std::set<std::string>::insert(p)` on the elements in iteration order: `p` is placed in
front of the first element greater than it, and nothing changes when an equivalent element
(neither less nor greater) is met first. -/
def StdSet.insert (p : StdString) : List StdString → List StdString
  | [] => [p]
  | x :: xs =>
    if p < x then p :: x :: xs
    else if x < p then x :: StdSet.insert p xs
    else x :: xs

/-- The class invariant of `std::set`: iteration is strictly ascending. -/
def StdSet.WF (s : List StdString) : Prop := s.Sorted (· < ·)

instance (s : List StdString) : Decidable (StdSet.WF s) := by
  unfold StdSet.WF; infer_instance

/-! ## `DependencyTracker` (Driver.h, lines 79-120) -/

/-- The data members of `DependencyTracker`. -/
structure DependencyTracker where
  path : StdString
  active : Bool
  notFounds : List StdString
  deriving DecidableEq

namespace DependencyTracker

/-- `logFileNotFound(std::string path)`. -/
def logFileNotFound (t : DependencyTracker) (path : StdString) : DependencyTracker :=
  if t.active then { t with notFounds := StdSet.insert path t.notFounds } else t

/-- `logFileNotFound(const Twine &path)`. -/
def logFileNotFoundTwine (t : DependencyTracker) (path : Twine) : DependencyTracker :=
  if t.active then { t with notFounds := StdSet.insert path.str t.notFounds } else t

/-- The `DepOpCode` enumeration. -/
inductive DepOpCode where
  | Version
  | Input
  | NotFound
  | Output
  deriving DecidableEq

/-- The `uint8_t` value of a `DepOpCode` enumerator. -/
def DepOpCode.value : DepOpCode → Nat
  | .Version => 0x00
  | .Input => 0x10
  | .NotFound => 0x11
  | .Output => 0x40

/-- One record of the dependency file: the opcode tag and the path bytes. -/
abbrev DepRecord := DepOpCode × StdString

/-- Modelled from the spec: the emission of one record, "an opcode tag plus path bytes"
(section 4.5), behind the records already emitted.  The body of `DependencyTracker::write`,
which does this, is not part of Driver.h. -/
def addDep (os : List DepRecord) (opcode : DepOpCode) (path : StdString) : List DepRecord :=
  os ++ [(opcode, path)]

/-- Modelled from the spec: the body of `DependencyTracker::write` is not part of Driver.h,
which only declares it.  Section 4.5: it "serializes, in fixed order: (1) one Version
record; (2) one Input record per entry of `inputFiles`, in the caller-supplied order (link
order, not sorted); (3) one NotFound record per entry of the internal not-found set, sorted
alphabetically; (4) one Output record for `outputPath`", and "calling `write` on an inactive
tracker is always safe and produces no output".  `inputs` lists the names of the input files
in the caller-supplied order.  The result is the record sequence handed to the output
stream, which is assumed to open. -/
def write (t : DependencyTracker) (version : StdString) (inputs : List StdString)
    (output : StdString) : List DepRecord :=
  if t.active then
    addDep
      (t.notFounds.foldl (fun os f => addDep os DepOpCode.NotFound f)
        (inputs.foldl (fun os f => addDep os DepOpCode.Input f)
          (addDep [] DepOpCode.Version version)))
      DepOpCode.Output output
  else []

/-- The paths of the records of a stream that carry the opcode `opcode`, in stream order. -/
def pathsOf (opcode : DepOpCode) (os : List DepRecord) : List StdString :=
  os.filterMap (fun r => if r.1 = opcode then some r.2 else none)

/-- The path that a call of `logFileNotFound` logs: the argument itself for the
`std::string` overload, and `path.str()` for the `Twine` overload. -/
def callPath : StdString ⊕ Twine → StdString
  | .inl path => path
  | .inr path => path.str

/-- One call of `logFileNotFound`, with the overload that the type of the argument selects. -/
def logCall (t : DependencyTracker) : StdString ⊕ Twine → DependencyTracker
  | .inl path => t.logFileNotFound path
  | .inr path => t.logFileNotFoundTwine path

end DependencyTracker

/-! ## Path resolution (Driver.h, lines 53-64) -/

/-- Modelled from the spec: the path `{root}/{name}.{extension}` probed by
`findPathCombination`, whose body is not part of Driver.h; with the empty extension the path
is `{root}/{name}` (comment on the declaration, Driver.h lines 59-60). -/
def pathCombination (root name ext : StdString) : StdString :=
  if ext = [] then root ++ str "/" ++ name else root ++ str "/" ++ name ++ str "." ++ ext

/-- Modelled from the spec: the inner loop of `findPathCombination` over the extensions, for
one root (section 4.1: "for each root iterates extensions in given order"). -/
def findInRoot (fileExists : StdString → Bool) (name root : StdString) :
    List StdString → Option StdString
  | [] => none
  | ext :: exts =>
    if fileExists (pathCombination root name ext) then some (pathCombination root name ext)
    else findInRoot fileExists name root exts

/-- Modelled from the spec: `findPathCombination(name, roots, extensions)`, whose body is not
part of Driver.h.  Section 4.1: "iterates roots in given order, and for each root iterates
extensions in given order, testing existence of `root/name.extension`; returns the first
existing combination, or none if all are exhausted".  `fileExists` is the state of the file
system. -/
def findPathCombination (fileExists : StdString → Bool) (name : StdString) :
    List StdString → List StdString → Option StdString
  | [], _ => none
  | root :: roots, extensions =>
    match findInRoot fileExists name root extensions with
    | some p => some p
    | none => findPathCombination fileExists name roots extensions

/-- The probe sequence named by the specification (section 8, "the first `(root, ext)` pair
in index order"): every combination, the roots in the outer position and the extensions in
the inner one, both in index order. -/
def pathCandidates (name : StdString) (roots extensions : List StdString) : List StdString :=
  roots.flatMap (fun root => extensions.map (fun ext => pathCombination root name ext))

/-- The default argument `extensions = {""}` of `findPathCombination`. -/
def findPathCombinationDefault (fileExists : StdString → Bool) (name : StdString)
    (roots : List StdString) : Option StdString :=
  findPathCombination fileExists name roots [str ""]

/-- Modelled from the spec: `resolveDylibPath(path)`, whose body is not part of Driver.h.
Section 4.2: "tests `path + ".dylib"` then `path + ".tbd"`, in that exact order, returning the
first that exists; if the caller already supplied one of those two suffixes explicitly, that
exact path is checked first.  Returns none if neither exists". -/
def resolveDylibPath (fileExists : StdString → Bool) (path : StdString) : Option StdString :=
  if ((str ".dylib").isSuffixOf path || (str ".tbd").isSuffixOf path) && fileExists path then
    some path
  else if fileExists (path ++ str ".dylib") then some (path ++ str ".dylib")
  else if fileExists (path ++ str ".tbd") then some (path ++ str ".tbd")
  else none

end Lld

/-! ## libc++ algorithms -/

namespace Libcxx

/-! ### `merge.h`

An input range `[first, last)` is the list of the elements still to be read.  The output
iterator `__result` is its position together with the sequence written through it so far. -/

/-- Modelled from the spec: `_VSTD::copy(first, last, result)` of `__algorithm/copy.h`, which
is not among the sources at hand.  The specification (section 1) takes the generic algorithm
routines as the ordinary, well-understood ones, so `copy` has its standard meaning: every
element of the input range is written through the output iterator, in order, and the
advanced output iterator is returned. -/
def copy {α : Type} (src : List α) (result : Nat) (out : List α) : List α × Nat :=
  (out ++ src, result + src.length)

/-- `__merge(first1, last1, first2, last2, result, comp)` (merge.h, lines 26-48): the
sequence written and the returned output position. -/
def __merge {α : Type} (comp : α → α → Bool) :
    List α → List α → Nat → List α → List α × Nat
  | [], r2, result, out => copy r2 result out
  | x :: r1, [], result, out => copy (x :: r1) result out
  | x :: r1, y :: r2, result, out =>
    if comp y x then __merge comp (x :: r1) r2 (result + 1) (out ++ [y])
    else __merge comp r1 (y :: r2) (result + 1) (out ++ [x])
termination_by r1 r2 => r1.length + r2.length

/-- `merge(first1, last1, first2, last2, result, comp)` (merge.h, lines 50-58). -/
def merge {α : Type} (r1 r2 : List α) (result : Nat) (comp : α → α → Bool) : List α × Nat :=
  __merge comp r1 r2 result []

/-- `merge(first1, last1, first2, last2, result)` (merge.h, lines 60-69), the comparator
being `__less`, that is `<`. -/
def mergeLess {α : Type} [LT α] [DecidableRel (fun a b : α => a < b)]
    (r1 r2 : List α) (result : Nat) : List α × Nat :=
  merge r1 r2 result (fun a b => decide (a < b))

/-- A comparator that induces a strict weak ordering: irreflexive, transitive, and with a
transitive incomparability relation. -/
structure StrictWeakOrder {α : Type} (comp : α → α → Bool) : Prop where
  irrefl : ∀ a, comp a a = false
  trans : ∀ a b c, comp a b = true → comp b c = true → comp a c = true
  incomp_trans : ∀ a b c, comp a b = false → comp b a = false → comp b c = false →
    comp c b = false → comp a c = false ∧ comp c a = false

/-- A sequence sorted with respect to `comp`: no element compares less than an earlier one. -/
def SortedBy {α : Type} (comp : α → α → Bool) (l : List α) : Prop :=
  l.Pairwise (fun a b => comp b a = false)

/-- The range an element of a merge was read from. -/
inductive Origin where
  | first
  | second
  deriving DecidableEq

/-- The comparator `comp` on elements that carry their range of origin. -/
def compTagged {α : Type} (comp : α → α → Bool) (p q : α × Origin) : Bool := comp p.1 q.1

/-- The sequence `__merge` writes when every element carries the range it was read from,
which the comparator does not look at. -/
def mergeTagged {α : Type} (comp : α → α → Bool) (r1 r2 : List α) (result : Nat) :
    List (α × Origin) :=
  (__merge (compTagged comp) (r1.map (fun a => (a, Origin.first)))
    (r2.map (fun b => (b, Origin.second))) result []).1

/-- Strict divisibility on the natural numbers: a strict partial order that is not a strict
weak ordering. -/
def properDivisor (a b : Nat) : Bool := decide (a ≠ b ∧ a ∣ b)

/-! ### `shift.h`

A sequence lives in a buffer (a list); an iterator is an index into the buffer. -/

/-- Modelled from the spec: the loop of `_VSTD::move` (see `move` below), run `count` times:
`for (; first != last; ++first, ++result) *result = std::move(*first);`.  Reading past
the end of the buffer, which a valid range never does, stops the loop. -/
def moveLoop {α : Type} (buf : List α) (first result : Nat) : Nat → List α × Nat
  | 0 => (buf, result)
  | count + 1 =>
    match buf[first]? with
    | some v => moveLoop (buf.set result v) (first + 1) (result + 1) count
    | none => (buf, result)

/-- Modelled from the spec: `_VSTD::move(first, last, result)` of `__algorithm/move.h`, which
is not among the sources at hand.  The specification (section 1) takes the generic algorithm
routines as the ordinary, well-understood ones, so `move` has its standard meaning: the
elements of `[first, last)` are assigned, front to back, to the positions from `result` on,
and the position after the last one written is returned.  The loop runs `last - first` times
(`first` must not be past `last`); a moved-from element keeps its value, as it does for
trivially copyable types. -/
def move {α : Type} (buf : List α) (first last result : Nat) : List α × Nat :=
  moveLoop buf first result (last - first)

/-- The loop `for (; __n > 0; --__n) { if (__m == __last) return __first; ++__m; }` of the
forward-iterator branch of `shift_left` (shift.h, lines 46-51): `none` when the loop leaves
through the `return`, else the final `__m`. -/
def shift_left_loop (last : Nat) : Nat → Nat → Option Nat
  | 0, m => some m
  | n + 1, m => if m = last then none else shift_left_loop last n (m + 1)

/-- `shift_left(first, last, n)` (shift.h, lines 29-54) on the buffer `buf`, for `n ≥ 0`:
the buffer afterwards and the returned iterator.  `randomAccess` is the value of
`__is_cpp17_random_access_iterator<_ForwardIterator>::value`, which selects the branch. -/
def shift_left {α : Type} (randomAccess : Bool) (buf : List α) (first last n : Nat) :
    List α × Nat :=
  if n = 0 then (buf, last)
  else if randomAccess then
    if n ≥ last - first then (buf, first)
    else move buf (first + n) last first
  else
    match shift_left_loop last n first with
    | none => (buf, first)
    | some m => move buf m last first

/-- Modelled from the spec: the loop of `_VSTD::move_backward` (see `move_backward` below),
run `count` times: `while (first != last) *--result = std::move(*--last);`.  Reading outside
the buffer, which a valid range never does, stops the loop. -/
def moveBackwardLoop {α : Type} (buf : List α) (last result : Nat) : Nat → List α × Nat
  | 0 => (buf, result)
  | count + 1 =>
    match buf[last - 1]? with
    | some v => moveBackwardLoop (buf.set (result - 1) v) (last - 1) (result - 1) count
    | none => (buf, result)

/-- Modelled from the spec: `_VSTD::move_backward(first, last, result)` of
`__algorithm/move_backward.h`, which is not among the sources at hand.  The specification
(section 1) takes the generic algorithm routines as the ordinary, well-understood ones, so
`move_backward` has its standard meaning: the elements of `[first, last)` are assigned, back
to front, to the positions that end at `result`, and the position of the last element
written is returned.  The loop runs `last - first` times; a moved-from element keeps its
value. -/
def move_backward {α : Type} (buf : List α) (first last result : Nat) : List α × Nat :=
  moveBackwardLoop buf last result (last - first)

/-- Modelled from the spec: `swap(*a, *b)` on two positions of the buffer (`swap` comes from
`<utility>`, not among the sources at hand): the two elements change places.  Positions
outside the buffer, which a valid range never has, leave the buffer as it is. -/
def swapAt {α : Type} (buf : List α) (a b : Nat) : List α :=
  match buf[a]?, buf[b]? with
  | some x, some y => (buf.set a y).set b x
  | _, _ => buf

/-- The loop `for (; __n > 0; --__n) { if (__m == __first) return __last; --__m; }` of the
bidirectional branch of `shift_right` (shift.h, lines 75-80): `none` when the loop leaves
through the `return`, else the final `__m`. -/
def shift_right_bidir_loop (first : Nat) : Nat → Nat → Option Nat
  | 0, m => some m
  | n + 1, m => if m = first then none else shift_right_bidir_loop first n (m - 1)

/-- The loop `for (; __n > 0; --__n) { if (__ret == __last) return __last; ++__ret; }` of
the forward branch of `shift_right` (shift.h, lines 84-89): `none` when the loop leaves
through the `return`, else the final `__ret`. -/
def shift_right_ret_loop (last : Nat) : Nat → Nat → Option Nat
  | 0, ret => some ret
  | n + 1, ret => if ret = last then none else shift_right_ret_loop last n (ret + 1)

/-- How the loop `while (__trail != __ret)` of the forward branch of `shift_right` ends. -/
inductive WindowExit (α : Type) where
  | returned : List α → Nat → WindowExit α
  | finished : Nat → Nat → WindowExit α

/-- The loop `while (__trail != __ret) { if (__lead == __last) { move(__first, __trail,
__ret); return __ret; } ++__trail; ++__lead; }` of the forward branch of `shift_right`
(shift.h, lines 99-106), with at most `fuel` tests of the loop condition: `none` when the
fuel runs out, `returned buf ret` when the loop leaves through the `return`, and
`finished trail lead` when the loop condition fails. -/
def shift_right_window {α : Type} (buf : List α) (first last ret : Nat) :
    Nat → Nat → Nat → Option (WindowExit α)
  | 0, _, _ => none
  | fuel + 1, trail, lead =>
    if trail = ret then some (WindowExit.finished trail lead)
    else if lead = last then some (WindowExit.returned (move buf first trail ret).1 ret)
    else shift_right_window buf first last ret fuel (trail + 1) (lead + 1)

/-- The loop `while (true)` of the forward branch of `shift_right` (shift.h, lines 109-122),
with at most `fuel` passes through the loop body: `none` when the fuel runs out, else the
buffer and the iterator returned. -/
def shift_right_slide {α : Type} (first last ret : Nat) :
    Nat → List α → Nat → Nat → Nat → Option (List α × Nat)
  | 0, _, _, _, _ => none
  | fuel + 1, buf, mid, trail, lead =>
    if lead = last then
      some ((move (move buf mid ret trail).1 first mid (move buf mid ret trail).2).1, ret)
    else
      shift_right_slide first last ret fuel (swapAt buf mid trail)
        (if mid + 1 = ret then first else mid + 1) (trail + 1) (lead + 1)

/-- `shift_right(first, last, n)` (shift.h, lines 56-124) on the buffer `buf`, for `n ≥ 0`:
the buffer afterwards and the returned iterator, or `none` when a loop of the forward branch
has not ended within `fuel` steps.  `randomAccess` and `bidirectional` are the values of
`__is_cpp17_random_access_iterator<_ForwardIterator>::value` and
`__is_cpp17_bidirectional_iterator<_ForwardIterator>::value`, which select the branch. -/
def shift_right {α : Type} (randomAccess bidirectional : Bool) (fuel : Nat) (buf : List α)
    (first last n : Nat) : Option (List α × Nat) :=
  if n = 0 then some (buf, first)
  else if randomAccess then
    if n ≥ last - first then some (buf, last)
    else some (move_backward buf first (first + (last - first - n)) last)
  else if bidirectional then
    match shift_right_bidir_loop first n last with
    | none => some (buf, last)
    | some m => some (move_backward buf first m last)
  else
    match shift_right_ret_loop last n first with
    | none => some (buf, last)
    | some ret =>
      match shift_right_window buf first last ret fuel first ret with
      | none => none
      | some (WindowExit.returned buf1 r) => some (buf1, r)
      | some (WindowExit.finished trail lead) =>
        shift_right_slide first last ret fuel buf first trail lead

/-! ### `advance.h`

A position of an iterator is an integer: `++i` adds one, `--i` subtracts one, and `bound - i`
is the difference of the positions.  A value of `iter_difference_t` is an integer; its width
`w` in bits matters to `__abs` only. -/

/-- The concepts that the `if constexpr` tests of `ranges::__advance_fn` ask about the
iterator type `I` and the sentinel type `S`. -/
structure IterConcepts where
  random_access_iterator : Bool
  bidirectional_iterator : Bool
  assignable_from : Bool
  sized_sentinel_for : Bool
  same_as : Bool
  deriving DecidableEq

/-- `__abs(n)` (advance.h, lines 74-79) for a signed type of `w` bits:
`__to_unsigned_like(n)` is `n` modulo `2 ^ w`, and `~u + 1` is computed modulo `2 ^ w`. -/
def __abs (w : Nat) (n : Int) : Nat :=
  if n < 0 then (2 ^ w - 1 - (n % 2 ^ w).toNat + 1) % 2 ^ w else (n % 2 ^ w).toNat

/-- `__advance_forward(i, n)` (advance.h, lines 81-87): `while (n > 0) { --n; ++i; }`. -/
def __advance_forward (i n : Int) : Int :=
  if 0 < n then __advance_forward (i + 1) (n - 1) else i
termination_by n.toNat
decreasing_by omega

/-- `__advance_backward(i, n)` (advance.h, lines 89-95): `while (n < 0) { ++n; --i; }`. -/
def __advance_backward (i n : Int) : Int :=
  if n < 0 then __advance_backward (i - 1) (n + 1) else i
termination_by (-n).toNat
decreasing_by omega

/-- `ranges::advance(i, n)` (advance.h, lines 101-121): the final position.  Both helper
calls of the bidirectional branch receive the same `n`, which they take by value. -/
def advance_n (c : IterConcepts) (i n : Int) : Int :=
  if c.random_access_iterator then i + n
  else if c.bidirectional_iterator then __advance_backward (__advance_forward i n) n
  else __advance_forward i n

/-- The loop `while (i != bound) { ++i; }` (advance.h, lines 136-138), with at most `fuel`
tests of the loop condition: `none` when the fuel runs out, else the final position. -/
def advance_until : Nat → Int → Int → Option Int
  | 0, _, _ => none
  | fuel + 1, i, bound => if i ≠ bound then advance_until fuel (i + 1) bound else some i

/-- `ranges::advance(i, bound)` (advance.h, lines 124-140): the final position, or `none`
when the loop of the third branch has not ended within `fuel` steps. -/
def advance_bound (c : IterConcepts) (fuel : Nat) (i bound : Int) : Option Int :=
  if c.assignable_from then some bound
  else if c.sized_sentinel_for then some (advance_n c i (bound - i))
  else advance_until fuel i bound

/-- The loop `while (i != bound && n > 0) { ++i; --n; }` (advance.h, lines 165-168): the
final `i` and `n`. -/
def advance_bounded_forward (i n bound : Int) : Int × Int :=
  if i ≠ bound ∧ 0 < n then advance_bounded_forward (i + 1) (n - 1) bound else (i, n)
termination_by n.toNat
decreasing_by omega

/-- The loop `while (i != bound && n < 0) { --i; ++n; }` (advance.h, lines 172-175): the
final `i` and `n`. -/
def advance_bounded_backward (i n bound : Int) : Int × Int :=
  if i ≠ bound ∧ n < 0 then advance_bounded_backward (i - 1) (n + 1) bound else (i, n)
termination_by (-n).toNat
decreasing_by omega

/-- `ranges::advance(i, n, bound)` (advance.h, lines 147-181) for a difference type of `w`
bits: the final position and the value returned, or `none` when a loop has not ended within
`fuel` steps. -/
def advance_n_bound (c : IterConcepts) (w fuel : Nat) (i n bound : Int) :
    Option (Int × Int) :=
  if c.sized_sentinel_for then
    if __abs w n ≥ __abs w (bound - i) then
      (advance_bound c fuel i bound).map (fun j => (j, n - (bound - i)))
    else some (advance_n c i n, 0)
  else
    if c.bidirectional_iterator && c.same_as then
      some (advance_bounded_backward (advance_bounded_forward i n bound).1
        (advance_bounded_forward i n bound).2 bound)
    else some (advance_bounded_forward i n bound)

end Libcxx

namespace Lld

/-! ## The order on strings -/

/-- The order on `StdString` is the byte-wise lexicographic one: nothing is below the empty
string, the empty string is below every other string, and two non-empty strings compare by
their first bytes and, these being equal, by their tails. -/
theorem StdString.lt_characterisation (a b : Fin 256) (s t : StdString) :
    ¬ (s < ([] : StdString)) ∧ (([] : StdString) < b :: t) ∧
    ((a :: s : StdString) < b :: t ↔ a < b ∨ (a = b ∧ s < t)) := by
  refine ⟨?_, ?_, ?_⟩
  · intro h
    cases h
  · exact List.Lex.nil
  · constructor
    · intro h
      cases h with
      | cons h => exact Or.inr ⟨rfl, h⟩
      | rel h => exact Or.inl h
    · rintro (h | ⟨rfl, h⟩)
      · exact List.Lex.rel h
      · exact List.Lex.cons h

/-! ## Lemmas on `StdSet.insert` -/

theorem StdSet.mem_insert (p q : StdString) (s : List StdString) :
    q ∈ StdSet.insert p s ↔ q = p ∨ q ∈ s := by
  induction s with
  | nil => simp [StdSet.insert]
  | cons x xs ih =>
    unfold StdSet.insert
    by_cases h1 : p < x
    · simp [h1]
    · by_cases h2 : x < p
      · simp only [h1, h2, if_false, if_true, List.mem_cons, ih]
        tauto
      · have hx : x = p := le_antisymm (not_lt.mp h1) (not_lt.mp h2)
        simp only [h1, h2, if_false, List.mem_cons]
        subst hx
        tauto

theorem StdSet.wf_insert (p : StdString) (s : List StdString) (h : StdSet.WF s) :
    StdSet.WF (StdSet.insert p s) := by
  unfold StdSet.WF at *
  induction s with
  | nil => simp [StdSet.insert]
  | cons x xs ih =>
    have hx := List.sorted_cons.mp h
    unfold StdSet.insert
    by_cases h1 : p < x
    · simp only [h1, if_true]
      refine List.sorted_cons.mpr ⟨?_, h⟩
      intro b hb
      rcases List.mem_cons.mp hb with rfl | hb
      · exact h1
      · exact lt_trans h1 (hx.1 b hb)
    · by_cases h2 : x < p
      · simp only [h1, h2, if_false, if_true]
        refine List.sorted_cons.mpr ⟨?_, ih hx.2⟩
        intro b hb
        rcases (StdSet.mem_insert p b xs).mp hb with rfl | hb
        · exact h2
        · exact hx.1 b hb
      · simpa only [h1, h2, if_false] using h

theorem StdSet.eq_of_mem_iff (s t : List StdString) (hs : StdSet.WF s) (ht : StdSet.WF t)
    (h : ∀ q, q ∈ s ↔ q ∈ t) : s = t :=
  List.eq_of_perm_of_sorted ((List.perm_ext_iff_of_nodup hs.nodup ht.nodup).mpr h) hs ht

theorem StdSet.insert_comm (p q : StdString) (s : List StdString) (h : StdSet.WF s) :
    StdSet.insert q (StdSet.insert p s) = StdSet.insert p (StdSet.insert q s) := by
  apply StdSet.eq_of_mem_iff
  · exact StdSet.wf_insert _ _ (StdSet.wf_insert _ _ h)
  · exact StdSet.wf_insert _ _ (StdSet.wf_insert _ _ h)
  · intro x
    simp only [StdSet.mem_insert]
    tauto

theorem StdSet.insert_idem (p : StdString) (s : List StdString) (h : StdSet.WF s) :
    StdSet.insert p (StdSet.insert p s) = StdSet.insert p s := by
  apply StdSet.eq_of_mem_iff
  · exact StdSet.wf_insert _ _ (StdSet.wf_insert _ _ h)
  · exact StdSet.wf_insert _ _ h
  · intro x
    simp only [StdSet.mem_insert]
    tauto

/-- The state of an active tracker after a sequence of `logFileNotFound` calls. -/
theorem DependencyTracker.foldl_logFileNotFound (ps : List StdString) (t : DependencyTracker)
    (ha : t.active = true) (hw : StdSet.WF t.notFounds) :
    (ps.foldl DependencyTracker.logFileNotFound t).active = true ∧
    (ps.foldl DependencyTracker.logFileNotFound t).path = t.path ∧
    StdSet.WF (ps.foldl DependencyTracker.logFileNotFound t).notFounds ∧
    ∀ q, q ∈ (ps.foldl DependencyTracker.logFileNotFound t).notFounds ↔
      q ∈ t.notFounds ∨ q ∈ ps := by
  induction ps generalizing t with
  | nil => simp [ha, hw]
  | cons p ps ih =>
    have hstep : t.logFileNotFound p = { t with notFounds := StdSet.insert p t.notFounds } := by
      simp [DependencyTracker.logFileNotFound, ha]
    have h := ih (t.logFileNotFound p) (by rw [hstep]; exact ha)
      (by rw [hstep]; exact StdSet.wf_insert _ _ hw)
    simp only [List.foldl_cons]
    refine ⟨h.1, ?_, h.2.2.1, ?_⟩
    · rw [h.2.1, hstep]
    · intro q
      rw [h.2.2.2 q, hstep]
      simp only [StdSet.mem_insert, List.mem_cons]
      tauto

/-! ## Claims on `logFileNotFound` -/

/-- C1: on an active tracker `logFileNotFound(p)` (either overload; the `Twine` overload at
the string `p.str()`) makes the not-found set the old set with `p` added, and keeps it a
well-formed set; on an inactive tracker the not-found set is unchanged; the active flag and
the output path are unchanged in every case; and the `Twine` overload acts as the string
overload does on `p.str()`. -/
theorem logFileNotFound_spec (t : DependencyTracker) (p : StdString) (tw : Twine) :
    (t.active = true →
      (∀ q, q ∈ (t.logFileNotFound p).notFounds ↔ q = p ∨ q ∈ t.notFounds) ∧
      (∀ q, q ∈ (t.logFileNotFoundTwine tw).notFounds ↔ q = tw.str ∨ q ∈ t.notFounds) ∧
      (StdSet.WF t.notFounds → StdSet.WF (t.logFileNotFound p).notFounds ∧
        StdSet.WF (t.logFileNotFoundTwine tw).notFounds)) ∧
    (t.active = false →
      (t.logFileNotFound p).notFounds = t.notFounds ∧
      (t.logFileNotFoundTwine tw).notFounds = t.notFounds) ∧
    (t.logFileNotFound p).active = t.active ∧
    (t.logFileNotFound p).path = t.path ∧
    (t.logFileNotFoundTwine tw).active = t.active ∧
    (t.logFileNotFoundTwine tw).path = t.path ∧
    t.logFileNotFoundTwine tw = t.logFileNotFound tw.str := by
  unfold DependencyTracker.logFileNotFound DependencyTracker.logFileNotFoundTwine
  refine ⟨?_, ?_, ?_, ?_, ?_, ?_, rfl⟩
  · intro ha
    simp only [ha, if_true]
    exact ⟨fun q => StdSet.mem_insert p q _, fun q => StdSet.mem_insert tw.str q _,
      fun hw => ⟨StdSet.wf_insert _ _ hw, StdSet.wf_insert _ _ hw⟩⟩
  · intro ha
    simp [ha]
  all_goals (split <;> rfl)

/-- Witness for C1: an active tracker holding `{"a", "c"}` logs `"b"` (as a string and as the
twine `"" + "b"`), and an inactive tracker logs `"b"`. -/
theorem logFileNotFound_spec_witness :
    (DependencyTracker.logFileNotFound ⟨str "deps", true, [str "a", str "c"]⟩ (str "b")).notFounds
        = [str "a", str "b", str "c"] ∧
    (∀ q, q ∈ (DependencyTracker.logFileNotFoundTwine ⟨str "deps", true, [str "a", str "c"]⟩
        (.concat (.leaf []) (.leaf (str "b")))).notFounds ↔
      q = Twine.str (.concat (.leaf []) (.leaf (str "b"))) ∨ q ∈ [str "a", str "c"]) ∧
    (DependencyTracker.logFileNotFound ⟨[], false, []⟩ (str "b")).notFounds = [] :=
  ⟨by decide,
   ((logFileNotFound_spec ⟨str "deps", true, [str "a", str "c"]⟩ (str "b")
      (.concat (.leaf []) (.leaf (str "b")))).1 rfl).2.1,
   ((logFileNotFound_spec ⟨[], false, []⟩ (str "b") (.leaf [])).2.1 rfl).1⟩

/-- A sequence of `logFileNotFound` calls of either overload acts as the sequence of
`std::string` calls on the paths logged. -/
theorem DependencyTracker.foldl_logCall (calls : List (StdString ⊕ Twine))
    (t : DependencyTracker) :
    calls.foldl DependencyTracker.logCall t
      = (calls.map DependencyTracker.callPath).foldl DependencyTracker.logFileNotFound t := by
  induction calls generalizing t with
  | nil => rfl
  | cons c calls ih =>
    have hc : t.logCall c = t.logFileNotFound (DependencyTracker.callPath c) := by
      cases c <;> rfl
    simp only [List.foldl_cons, List.map_cons, hc, ih]

/-- C2: after any finite sequence `calls` of `logFileNotFound` calls, each through the
`std::string` overload or through the `Twine` overload, on an active tracker whose not-found
set starts empty, the enumeration of the not-found set is strictly ascending in the
byte-wise lexicographic order, has no duplicate, and holds exactly the logged paths (the
argument of a `std::string` call, `path.str()` of a `Twine` call); the same holds of a
sequence `ps` of `std::string` calls; and logging "b" then "a", through either overload,
enumerates as [a, b]. -/
theorem notFounds_enumeration (t : DependencyTracker) (ha : t.active = true)
    (h0 : t.notFounds = []) (calls : List (StdString ⊕ Twine)) (ps : List StdString) :
    ((calls.foldl DependencyTracker.logCall t).notFounds.Sorted (· < ·) ∧
      (calls.foldl DependencyTracker.logCall t).notFounds.Nodup ∧
      (∀ q, q ∈ (calls.foldl DependencyTracker.logCall t).notFounds ↔
        q ∈ calls.map DependencyTracker.callPath)) ∧
    ((ps.foldl DependencyTracker.logFileNotFound t).notFounds.Sorted (· < ·) ∧
      (ps.foldl DependencyTracker.logFileNotFound t).notFounds.Nodup ∧
      (∀ q, q ∈ (ps.foldl DependencyTracker.logFileNotFound t).notFounds ↔ q ∈ ps)) ∧
    ((t.logFileNotFound (str "b")).logFileNotFound (str "a")).notFounds
      = [str "a", str "b"] ∧
    ((t.logFileNotFoundTwine (Twine.leaf (str "b"))).logFileNotFoundTwine
      (Twine.leaf (str "a"))).notFounds = [str "a", str "b"] ∧
    ((t.logFileNotFound (str "b")).logFileNotFoundTwine
      (Twine.concat (Twine.leaf []) (Twine.leaf (str "a")))).notFounds
      = [str "a", str "b"] := by
  have hw : StdSet.WF t.notFounds := by rw [h0]; exact List.sorted_nil
  have key : ∀ l : List StdString,
      (l.foldl DependencyTracker.logFileNotFound t).notFounds.Sorted (· < ·) ∧
      (l.foldl DependencyTracker.logFileNotFound t).notFounds.Nodup ∧
      (∀ q, q ∈ (l.foldl DependencyTracker.logFileNotFound t).notFounds ↔ q ∈ l) := by
    intro l
    have h := DependencyTracker.foldl_logFileNotFound l t ha hw
    refine ⟨h.2.2.1, List.Sorted.nodup h.2.2.1, ?_⟩
    intro q
    rw [h.2.2.2 q, h0]
    simp
  refine ⟨?_, key ps, ?_, ?_, ?_⟩
  · rw [DependencyTracker.foldl_logCall]
    exact key _
  · simp only [DependencyTracker.logFileNotFound, ha, h0, if_true]
    decide
  · simp only [DependencyTracker.logFileNotFoundTwine, ha, h0, if_true]
    decide
  · simp only [DependencyTracker.logFileNotFound, DependencyTracker.logFileNotFoundTwine, ha,
      h0, if_true]
    decide

/-- Witness for C2: on a fresh active tracker, "b" through the `std::string` overload, then
"a" through the `Twine` overload as `"" + "a"`, then "b" through the `Twine` overload. -/
theorem notFounds_enumeration_witness :
    ([Sum.inl (str "b"), Sum.inr (Twine.concat (Twine.leaf []) (Twine.leaf (str "a"))),
        Sum.inr (Twine.leaf (str "b"))].foldl DependencyTracker.logCall
        ⟨str "deps", true, []⟩).notFounds = [str "a", str "b"] ∧
    ([Sum.inl (str "b"), Sum.inr (Twine.concat (Twine.leaf []) (Twine.leaf (str "a"))),
        Sum.inr (Twine.leaf (str "b"))].foldl DependencyTracker.logCall
        ⟨str "deps", true, []⟩).notFounds.Sorted (· < ·) ∧
    ([str "b", str "a", str "b"].foldl DependencyTracker.logFileNotFound
        ⟨str "deps", true, []⟩).notFounds.Sorted (· < ·) :=
  ⟨by decide,
   (notFounds_enumeration ⟨str "deps", true, []⟩ rfl rfl
      [Sum.inl (str "b"), Sum.inr (Twine.concat (Twine.leaf []) (Twine.leaf (str "a"))),
        Sum.inr (Twine.leaf (str "b"))] [str "b", str "a", str "b"]).1.1,
   (notFounds_enumeration ⟨str "deps", true, []⟩ rfl rfl
      [Sum.inl (str "b"), Sum.inr (Twine.concat (Twine.leaf []) (Twine.leaf (str "a"))),
        Sum.inr (Twine.leaf (str "b"))] [str "b", str "a", str "b"]).2.1.1⟩

/-- C3: on a tracker whose not-found set is a well-formed set, logging `p` then `q` gives the
same state as logging `q` then `p`, logging `p` twice gives the same state as logging it
once, and two call sequences that log the same set of paths give the same state. -/
theorem logFileNotFound_order_irrelevant (t : DependencyTracker)
    (hw : StdSet.WF t.notFounds) (p q : StdString) (ps qs : List StdString)
    (hsame : ∀ x, x ∈ ps ↔ x ∈ qs) :
    (t.logFileNotFound p).logFileNotFound q = (t.logFileNotFound q).logFileNotFound p ∧
    (t.logFileNotFound p).logFileNotFound p = t.logFileNotFound p ∧
    ps.foldl DependencyTracker.logFileNotFound t
      = qs.foldl DependencyTracker.logFileNotFound t := by
  obtain ⟨path, active, nf⟩ := t
  cases active with
  | false =>
    have hid : ∀ l : List StdString,
        l.foldl DependencyTracker.logFileNotFound ⟨path, false, nf⟩ = ⟨path, false, nf⟩ := by
      intro l
      induction l with
      | nil => rfl
      | cons a l ih => simpa [DependencyTracker.logFileNotFound] using ih
    refine ⟨by simp [DependencyTracker.logFileNotFound],
      by simp [DependencyTracker.logFileNotFound], ?_⟩
    rw [hid, hid]
  | true =>
    refine ⟨?_, ?_, ?_⟩
    · simp only [DependencyTracker.logFileNotFound, if_true]
      rw [StdSet.insert_comm p q nf hw]
    · simp only [DependencyTracker.logFileNotFound, if_true]
      rw [StdSet.insert_idem p nf hw]
    · have h1 := DependencyTracker.foldl_logFileNotFound ps ⟨path, true, nf⟩ rfl hw
      have h2 := DependencyTracker.foldl_logFileNotFound qs ⟨path, true, nf⟩ rfl hw
      have hnf := StdSet.eq_of_mem_iff _ _ h1.2.2.1 h2.2.2.1
        (fun x => by rw [h1.2.2.2 x, h2.2.2.2 x, hsame x])
      generalize ps.foldl DependencyTracker.logFileNotFound ⟨path, true, nf⟩ = a at *
      generalize qs.foldl DependencyTracker.logFileNotFound ⟨path, true, nf⟩ = b at *
      obtain ⟨pa, aa, na⟩ := a
      obtain ⟨pb, ab, nb⟩ := b
      simp only at h1 h2 hnf
      simp only [DependencyTracker.mk.injEq]
      exact ⟨h1.2.1.trans h2.2.1.symm, h1.1.trans h2.1.symm, hnf⟩

/-- Witness for C3: an active tracker holding `{"m"}`, the paths "b" and "a", and the call
sequences [b, a, b] and [a, b]. -/
theorem logFileNotFound_order_irrelevant_witness :
    StdSet.WF [str "m"] ∧
    DependencyTracker.logFileNotFound
        (DependencyTracker.logFileNotFound ⟨str "deps", true, [str "m"]⟩ (str "b")) (str "a")
      = DependencyTracker.logFileNotFound
        (DependencyTracker.logFileNotFound ⟨str "deps", true, [str "m"]⟩ (str "a")) (str "b") :=
  ⟨by decide,
   (logFileNotFound_order_irrelevant ⟨str "deps", true, [str "m"]⟩ (by decide)
      (str "b") (str "a") [str "b", str "a", str "b"] [str "a", str "b"]
      (by intro x; simp only [List.mem_cons, List.mem_singleton]; tauto)).1⟩

/-! ## Claims on the opcodes and on `write` -/

open DependencyTracker

/-- C4: the opcodes have the 8-bit values Version=0x00, Input=0x10, NotFound=0x11,
Output=0x40; distinct opcodes have distinct values; the values increase strictly along
Version, Input, NotFound, Output; and a record stream made of a Version section, an Input
section, a NotFound section and an Output section, in that order, is sorted by opcode
value. -/
theorem depOpCode_values :
    (DepOpCode.Version.value = 0x00 ∧ DepOpCode.Input.value = 0x10 ∧
      DepOpCode.NotFound.value = 0x11 ∧ DepOpCode.Output.value = 0x40) ∧
    (∀ c : DepOpCode, c.value < 2 ^ 8) ∧
    (∀ c d : DepOpCode, c.value = d.value → c = d) ∧
    (DepOpCode.Version.value < DepOpCode.Input.value ∧
      DepOpCode.Input.value < DepOpCode.NotFound.value ∧
      DepOpCode.NotFound.value < DepOpCode.Output.value) ∧
    (∀ vs ins nfs outs : List StdString,
      ((vs.map (fun f => (DepOpCode.Version, f)) ++ (ins.map (fun f => (DepOpCode.Input, f)) ++
        (nfs.map (fun f => (DepOpCode.NotFound, f)) ++
          outs.map (fun f => (DepOpCode.Output, f))))).map
            (fun r : DepRecord => r.1.value)).Sorted (· ≤ ·)) := by
  refine ⟨by decide, ?_, ?_, by decide, ?_⟩
  · intro c; cases c <;> decide
  · intro c d; cases c <;> cases d <;> decide
  · intro vs ins nfs outs
    simp only [List.map_append, List.map_map, Function.comp_def, List.Sorted,
      List.pairwise_append, List.pairwise_map, List.mem_map, List.mem_append]
    refine ⟨List.pairwise_of_forall (fun _ _ => le_refl _),
      ⟨List.pairwise_of_forall (fun _ _ => le_refl _),
        ⟨List.pairwise_of_forall (fun _ _ => le_refl _),
          List.pairwise_of_forall (fun _ _ => le_refl _), ?_⟩, ?_⟩, ?_⟩
    · rintro a ⟨_, _, rfl⟩ b ⟨_, _, rfl⟩; decide
    · rintro a ⟨_, _, rfl⟩ b (⟨_, _, rfl⟩ | ⟨_, _, rfl⟩) <;> decide
    · rintro a ⟨_, _, rfl⟩ b (⟨_, _, rfl⟩ | ⟨_, _, rfl⟩ | ⟨_, _, rfl⟩) <;> decide

theorem foldl_addDep (opcode : DepOpCode) (l : List StdString) (os : List DepRecord) :
    l.foldl (fun os f => addDep os opcode f) os = os ++ l.map (fun f => (opcode, f)) := by
  induction l generalizing os with
  | nil => simp
  | cons f l ih =>
    rw [List.foldl_cons, ih]
    simp [addDep]

theorem pathsOf_append (opcode : DepOpCode) (os1 os2 : List DepRecord) :
    pathsOf opcode (os1 ++ os2) = pathsOf opcode os1 ++ pathsOf opcode os2 := by
  simp [pathsOf]

theorem pathsOf_map_same (opcode : DepOpCode) (l : List StdString) :
    pathsOf opcode (l.map (fun f => (opcode, f))) = l := by
  induction l with
  | nil => rfl
  | cons f l ih =>
    simp only [pathsOf, List.map_cons, List.filterMap_cons] at ih ⊢
    simp [ih]

theorem pathsOf_map_other (opcode other : DepOpCode) (h : other ≠ opcode)
    (l : List StdString) : pathsOf opcode (l.map (fun f => (other, f))) = [] := by
  induction l with
  | nil => rfl
  | cons f l ih =>
    simp only [pathsOf, List.map_cons, List.filterMap_cons] at ih ⊢
    simp [ih, h]

/-- C5: on an active tracker whose not-found set is well formed, `write` emits exactly one
Version record, then one Input record per entry of the input list in the caller-supplied
order, then one NotFound record per element of the not-found set in alphabetical order, then
one Output record; on an inactive tracker it emits nothing. -/
theorem write_spec (t : DependencyTracker) (hw : StdSet.WF t.notFounds)
    (version : StdString) (inputs : List StdString) (output : StdString) :
    (t.active = true →
      write t version inputs output
        = [(DepOpCode.Version, version)] ++ inputs.map (fun f => (DepOpCode.Input, f)) ++
            t.notFounds.map (fun f => (DepOpCode.NotFound, f)) ++
            [(DepOpCode.Output, output)] ∧
      pathsOf DepOpCode.Version (write t version inputs output) = [version] ∧
      pathsOf DepOpCode.Input (write t version inputs output) = inputs ∧
      pathsOf DepOpCode.NotFound (write t version inputs output) = t.notFounds ∧
      (pathsOf DepOpCode.NotFound (write t version inputs output)).Sorted (· < ·) ∧
      pathsOf DepOpCode.Output (write t version inputs output) = [output] ∧
      (write t version inputs output).length = inputs.length + t.notFounds.length + 2) ∧
    (t.active = false → write t version inputs output = []) := by
  constructor
  · intro ha
    have hform : write t version inputs output
        = [(DepOpCode.Version, version)] ++ inputs.map (fun f => (DepOpCode.Input, f)) ++
            t.notFounds.map (fun f => (DepOpCode.NotFound, f)) ++
            [(DepOpCode.Output, output)] := by
      simp only [write, ha, if_true, foldl_addDep]
      simp [addDep]
    have hv : pathsOf DepOpCode.Version [(DepOpCode.Version, version)] = [version] := rfl
    have ho : pathsOf DepOpCode.Output [(DepOpCode.Output, output)] = [output] := rfl
    have hnf : pathsOf DepOpCode.NotFound (write t version inputs output) = t.notFounds := by
      rw [hform]
      simp only [pathsOf_append, pathsOf_map_same]
      rw [pathsOf_map_other _ _ (by decide)]
      simp [pathsOf]
    refine ⟨hform, ?_, ?_, hnf, by rw [hnf]; exact hw, ?_, ?_⟩
    · rw [hform]
      simp only [pathsOf_append, hv]
      rw [pathsOf_map_other _ _ (by decide), pathsOf_map_other _ _ (by decide)]
      simp [pathsOf]
    · rw [hform]
      simp only [pathsOf_append, pathsOf_map_same]
      rw [pathsOf_map_other _ _ (by decide)]
      simp [pathsOf]
    · rw [hform]
      simp only [pathsOf_append, ho]
      rw [pathsOf_map_other _ _ (by decide), pathsOf_map_other _ _ (by decide)]
      simp [pathsOf]
    · rw [hform]
      simp
      omega
  · intro ha
    simp [write, ha]

/-- Witness for C5: an active tracker holding `{"x"}` writes the inputs [b, a], in that
order, and an inactive tracker writes nothing. -/
theorem write_spec_witness :
    StdSet.WF [str "x"] ∧
    write ⟨str "deps", true, [str "x"]⟩ (str "v") [str "b", str "a"] (str "out")
      = [(DepOpCode.Version, str "v"), (DepOpCode.Input, str "b"), (DepOpCode.Input, str "a"),
          (DepOpCode.NotFound, str "x"), (DepOpCode.Output, str "out")] ∧
    pathsOf DepOpCode.Input
        (write ⟨str "deps", true, [str "x"]⟩ (str "v") [str "b", str "a"] (str "out"))
      = [str "b", str "a"] ∧
    write ⟨[], false, []⟩ (str "v") [str "b", str "a"] (str "out") = [] :=
  ⟨by decide, by decide,
   ((write_spec ⟨str "deps", true, [str "x"]⟩ (by decide) (str "v") [str "b", str "a"]
      (str "out")).1 rfl).2.2.1,
   (write_spec ⟨[], false, []⟩ (by decide) (str "v") [str "b", str "a"] (str "out")).2 rfl⟩

/-! ## Claims on path resolution -/

theorem findInRoot_eq_find (fileExists : StdString → Bool) (name root : StdString)
    (exts : List StdString) :
    findInRoot fileExists name root exts
      = (exts.map (fun ext => pathCombination root name ext)).find? fileExists := by
  induction exts with
  | nil => rfl
  | cons e es ih =>
    simp only [findInRoot, List.map_cons, List.find?_cons]
    cases h : fileExists (pathCombination root name e) <;> simp [ih]

theorem findPathCombination_eq_find (fileExists : StdString → Bool) (name : StdString)
    (roots exts : List StdString) :
    findPathCombination fileExists name roots exts
      = (pathCandidates name roots exts).find? fileExists := by
  induction roots with
  | nil => rfl
  | cons r rs ih =>
    simp only [findPathCombination, pathCandidates, List.flatMap_cons, List.find?_append]
    rw [findInRoot_eq_find]
    cases h : (exts.map (fun ext => pathCombination r name ext)).find? fileExists with
    | some p => simp
    | none => simpa [pathCandidates] using ih

/-- C6: `findPathCombination(name, R, E)` returns the first combination that exists in the
probe sequence that runs over the roots in the outer loop and the extensions in the inner
loop, both in index order; it returns none if and only if no combination exists; with
the default extensions [""] it probes just root/name; and with the roots "/sysroot" and
"/usr/lib", the name "libFoo", the extensions "dylib" and "tbd", and only
/usr/lib/libFoo.tbd existing, it returns /usr/lib/libFoo.tbd. -/
theorem findPathCombination_spec (fileExists : StdString → Bool) (name : StdString)
    (roots exts : List StdString) :
    findPathCombination fileExists name roots exts
      = (pathCandidates name roots exts).find? fileExists ∧
    (∀ p, findPathCombination fileExists name roots exts = some p →
      fileExists p = true ∧
      ∃ before after, pathCandidates name roots exts = before ++ p :: after ∧
        ∀ c ∈ before, fileExists c = false) ∧
    (findPathCombination fileExists name roots exts = none ↔
      ∀ r ∈ roots, ∀ e ∈ exts, fileExists (pathCombination r name e) = false) ∧
    findPathCombinationDefault fileExists name roots
      = (roots.map (fun r => r ++ str "/" ++ name)).find? fileExists ∧
    findPathCombination (fun p => p == str "/usr/lib/libFoo.tbd") (str "libFoo")
        [str "/sysroot", str "/usr/lib"] [str "dylib", str "tbd"]
      = some (str "/usr/lib/libFoo.tbd") := by
  refine ⟨findPathCombination_eq_find _ _ _ _, ?_, ?_, ?_, by decide⟩
  · intro p hp
    rw [findPathCombination_eq_find, List.find?_eq_some] at hp
    obtain ⟨hp1, as, bs, hsplit, hbefore⟩ := hp
    refine ⟨hp1, as, bs, hsplit, ?_⟩
    intro c hc
    simpa using hbefore c hc
  · rw [findPathCombination_eq_find, List.find?_eq_none]
    simp only [pathCandidates, List.mem_flatMap, List.mem_map, Bool.not_eq_true]
    constructor
    · intro h r hr e he
      exact h _ ⟨r, hr, e, he, rfl⟩
    · rintro h c ⟨r, hr, e, he, rfl⟩
      exact h r hr e he
  · unfold findPathCombinationDefault
    rw [findPathCombination_eq_find]
    congr 1
    have hempty : str "" = [] := rfl
    unfold pathCandidates
    induction roots with
    | nil => rfl
    | cons r rs ih =>
      rw [List.flatMap_cons, ih]
      simp [pathCombination, hempty]

/-- C7, as stated, fails: the path "libfoo.dylib" exists, neither "libfoo.dylib.dylib" nor
"libfoo.dylib.tbd" exists, and `resolveDylibPath` returns "libfoo.dylib", not none. -/
theorem resolveDylibPath_counterexample :
    (fun q : StdString => q == str "libfoo.dylib") (str "libfoo.dylib" ++ str ".dylib") = false ∧
    (fun q : StdString => q == str "libfoo.dylib") (str "libfoo.dylib" ++ str ".tbd") = false ∧
    resolveDylibPath (fun q => q == str "libfoo.dylib") (str "libfoo.dylib") ≠ none ∧
    resolveDylibPath (fun q => q == str "libfoo.dylib") (str "libfoo.dylib")
      = some (str "libfoo.dylib") := by
  decide

/-- C7, amended: if `p` itself ends in ".dylib" or ".tbd" and exists, `resolveDylibPath(p)`
returns `p`; otherwise it checks `p + ".dylib"` and then `p + ".tbd"` in that order and
returns the first that exists: the .dylib form if both exist, the .tbd form if only the .tbd
exists, and none if neither exists. -/
theorem resolveDylibPath_spec (fileExists : StdString → Bool) (p : StdString) :
    ((((str ".dylib").isSuffixOf p || (str ".tbd").isSuffixOf p) && fileExists p) = true →
      resolveDylibPath fileExists p = some p) ∧
    ((((str ".dylib").isSuffixOf p || (str ".tbd").isSuffixOf p) && fileExists p) = false →
      (fileExists (p ++ str ".dylib") = true →
        resolveDylibPath fileExists p = some (p ++ str ".dylib")) ∧
      (fileExists (p ++ str ".dylib") = false → fileExists (p ++ str ".tbd") = true →
        resolveDylibPath fileExists p = some (p ++ str ".tbd")) ∧
      (fileExists (p ++ str ".dylib") = false → fileExists (p ++ str ".tbd") = false →
        resolveDylibPath fileExists p = none)) := by
  unfold resolveDylibPath
  constructor
  · intro h
    rw [if_pos h]
  · intro h
    rw [if_neg (by simp [h])]
    refine ⟨fun h1 => ?_, fun h1 h2 => ?_, fun h1 h2 => ?_⟩
    · simp [h1]
    · simp [h1, h2]
    · simp [h1, h2]

/-- Witness for C7 (amended): "libfoo" with both forms present, "libfoo" with only the .tbd
form present, and the existing path "libfoo.tbd". -/
theorem resolveDylibPath_spec_witness :
    resolveDylibPath (fun q => q == str "libfoo.dylib" || q == str "libfoo.tbd") (str "libfoo")
      = some (str "libfoo" ++ str ".dylib") ∧
    resolveDylibPath (fun q => q == str "libfoo.tbd") (str "libfoo")
      = some (str "libfoo" ++ str ".tbd") ∧
    resolveDylibPath (fun q => q == str "libfoo.tbd") (str "libfoo.tbd")
      = some (str "libfoo.tbd") :=
  ⟨((resolveDylibPath_spec (fun q => q == str "libfoo.dylib" || q == str "libfoo.tbd")
      (str "libfoo")).2 (by decide)).1 (by decide),
   ((resolveDylibPath_spec (fun q => q == str "libfoo.tbd") (str "libfoo")).2
      (by decide)).2.1 (by decide) (by decide),
   (resolveDylibPath_spec (fun q => q == str "libfoo.tbd") (str "libfoo.tbd")).1 (by decide)⟩

end Lld

namespace Libcxx

/-! ## Lemmas on `__merge` -/

theorem __merge_acc_aux {α : Type} (comp : α → α → Bool) (r1 r2 : List α) (result0 : Nat)
    (out0 : List α) : ∀ (result : Nat) (out : List α),
    __merge comp r1 r2 result out
      = (out ++ (__merge comp r1 r2 0 []).1, result + (r1.length + r2.length)) := by
  induction r1, r2, result0, out0 using __merge.induct comp with
  | case1 r2 _ _ => intro result out; simp [__merge, copy]
  | case2 x r1 _ _ => intro result out; simp [__merge, copy]
  | case3 x r1 y r2 _ _ h ih =>
    intro result out
    rw [__merge, if_pos h, ih]
    conv_rhs => rw [__merge, if_pos h, ih]
    simp only [List.append_assoc, List.nil_append, List.length_cons, Prod.mk.injEq, true_and]
    omega
  | case4 x r1 y r2 _ _ h ih =>
    intro result out
    rw [__merge, if_neg h, ih]
    conv_rhs => rw [__merge, if_neg h, ih]
    simp only [List.append_assoc, List.nil_append, List.length_cons, Prod.mk.injEq, true_and]
    omega

/-- The accumulated output and the output position do not influence the merge itself. -/
theorem __merge_acc {α : Type} (comp : α → α → Bool) (r1 r2 : List α) (result : Nat)
    (out : List α) :
    __merge comp r1 r2 result out
      = (out ++ (__merge comp r1 r2 0 []).1, result + (r1.length + r2.length)) :=
  __merge_acc_aux comp r1 r2 0 [] result out

theorem __merge_nil_left {α : Type} (comp : α → α → Bool) (r2 : List α) :
    (__merge comp [] r2 0 []).1 = r2 := by
  simp [__merge, copy]

theorem __merge_nil_right {α : Type} (comp : α → α → Bool) (r1 : List α) :
    (__merge comp r1 [] 0 []).1 = r1 := by
  cases r1 <;> simp [__merge, copy]

theorem __merge_cons_cons {α : Type} (comp : α → α → Bool) (x y : α) (r1 r2 : List α) :
    (__merge comp (x :: r1) (y :: r2) 0 []).1
      = if comp y x then y :: (__merge comp (x :: r1) r2 0 []).1
        else x :: (__merge comp r1 (y :: r2) 0 []).1 := by
  rw [__merge]
  split
  · rw [__merge_acc]; rfl
  · rw [__merge_acc]; rfl

theorem __merge_perm {α : Type} (comp : α → α → Bool) (r1 r2 : List α) :
    (__merge comp r1 r2 0 []).1.Perm (r1 ++ r2) := by
  induction r1 generalizing r2 with
  | nil => rw [__merge_nil_left]; exact List.Perm.refl _
  | cons x r1 ih1 =>
    induction r2 with
    | nil => rw [__merge_nil_right]; simp
    | cons y r2 ih2 =>
      rw [__merge_cons_cons]
      split
      · refine (List.Perm.cons y ih2).trans ?_
        exact (@List.perm_middle _ y (x :: r1) r2).symm
      · exact List.Perm.cons x (ih1 (y :: r2))

theorem StrictWeakOrder.asymm {α : Type} {comp : α → α → Bool} (h : StrictWeakOrder comp)
    (a b : α) (hab : comp a b = true) : comp b a = false := by
  cases hba : comp b a with
  | false => rfl
  | true =>
    have := h.trans a b a hab hba
    rw [h.irrefl a] at this
    exact this.symm

/-- Negative transitivity: what is less than `c` is less than `b`, or `b` is less than `c`. -/
theorem StrictWeakOrder.neg_trans {α : Type} {comp : α → α → Bool} (h : StrictWeakOrder comp)
    (a b c : α) (hab : comp a b = false) (hbc : comp b c = false) : comp a c = false := by
  cases hac : comp a c with
  | false => rfl
  | true =>
    exfalso
    cases hba : comp b a with
    | true =>
      have := h.trans b a c hba hac
      rw [hbc] at this
      exact Bool.noConfusion this
    | false =>
      cases hcb : comp c b with
      | true =>
        have := h.trans a c b hac hcb
        rw [hab] at this
        exact Bool.noConfusion this
      | false =>
        have := (h.incomp_trans a b c hab hba hbc hcb).1
        rw [hac] at this
        exact Bool.noConfusion this

theorem __merge_sorted {α : Type} (comp : α → α → Bool) (hswo : StrictWeakOrder comp)
    (r1 r2 : List α) (h1 : SortedBy comp r1) (h2 : SortedBy comp r2) :
    SortedBy comp (__merge comp r1 r2 0 []).1 := by
  unfold SortedBy at *
  induction r1 generalizing r2 with
  | nil => rw [__merge_nil_left]; exact h2
  | cons x r1 ih1 =>
    induction r2 with
    | nil => rw [__merge_nil_right]; exact h1
    | cons y r2 ih2 =>
      have hx := List.pairwise_cons.mp h1
      have hy := List.pairwise_cons.mp h2
      rw [__merge_cons_cons]
      split
      · rename_i h
        refine List.pairwise_cons.mpr ⟨?_, ih2 hy.2⟩
        intro z hz
        have hz' := (__merge_perm comp (x :: r1) r2).mem_iff.mp hz
        rcases List.mem_append.mp hz' with hz1 | hz2
        · rcases List.mem_cons.mp hz1 with rfl | hz1
          · exact hswo.asymm y z h
          · cases hzy : comp z y with
            | false => rfl
            | true =>
              have := hswo.trans z y x hzy h
              rw [hx.1 z hz1] at this
              exact this.symm
        · exact hy.1 z hz2
      · rename_i h
        have hyx : comp y x = false := by simpa using h
        refine List.pairwise_cons.mpr ⟨?_, ih1 (y :: r2) hx.2 h2⟩
        intro z hz
        have hz' := (__merge_perm comp r1 (y :: r2)).mem_iff.mp hz
        rcases List.mem_append.mp hz' with hz1 | hz2
        · exact hx.1 z hz1
        · rcases List.mem_cons.mp hz2 with rfl | hz2
          · exact hyx
          · exact hswo.neg_trans z y x (hy.1 z hz2) hyx

theorem natLt_strictWeakOrder : StrictWeakOrder (fun a b : Nat => decide (a < b)) :=
  ⟨by intro a; simp,
   by intro a b c; simp only [decide_eq_true_eq]; omega,
   by intro a b c; simp only [decide_eq_false_iff_not]; omega⟩

/-- C8: for a comparator that is a strict weak ordering and two inputs sorted with respect to
it, the sequence written by `__merge`, by `merge` with the comparator and (when the
comparator is `<`) by `merge` without comparator is sorted with respect to the comparator
and is a rearrangement of the two inputs, and the returned output position is the start
position plus the sum of the two input lengths. -/
theorem merge_sorted {α : Type} [LT α] [DecidableRel (fun a b : α => a < b)]
    (comp : α → α → Bool) (hswo : StrictWeakOrder comp) (r1 r2 : List α)
    (h1 : SortedBy comp r1) (h2 : SortedBy comp r2) (result : Nat) :
    (SortedBy comp (__merge comp r1 r2 result []).1 ∧
      (__merge comp r1 r2 result []).1.Perm (r1 ++ r2) ∧
      (__merge comp r1 r2 result []).2 = result + (r1.length + r2.length)) ∧
    (SortedBy comp (merge r1 r2 result comp).1 ∧
      (merge r1 r2 result comp).1.Perm (r1 ++ r2) ∧
      (merge r1 r2 result comp).2 = result + (r1.length + r2.length)) ∧
    (comp = (fun a b => decide (a < b)) →
      SortedBy comp (mergeLess r1 r2 result).1 ∧
      (mergeLess r1 r2 result).1.Perm (r1 ++ r2) ∧
      (mergeLess r1 r2 result).2 = result + (r1.length + r2.length)) := by
  have key : SortedBy comp (__merge comp r1 r2 result []).1 ∧
      (__merge comp r1 r2 result []).1.Perm (r1 ++ r2) ∧
      (__merge comp r1 r2 result []).2 = result + (r1.length + r2.length) := by
    rw [__merge_acc]
    exact ⟨by simpa using __merge_sorted comp hswo r1 r2 h1 h2,
      by simpa using __merge_perm comp r1 r2, rfl⟩
  refine ⟨key, key, ?_⟩
  intro hc
  subst hc
  exact key

/-- Witness for C8: merging [1, 3, 5] and [2, 3, 6] under `<` from output position 10. -/
theorem merge_sorted_witness :
    SortedBy (fun a b : Nat => decide (a < b)) [1, 3, 5] ∧
    SortedBy (fun a b : Nat => decide (a < b)) [2, 3, 6] ∧
    __merge (fun a b : Nat => decide (a < b)) [1, 3, 5] [2, 3, 6] 10 []
      = ([1, 2, 3, 3, 5, 6], 16) ∧
    SortedBy (fun a b : Nat => decide (a < b))
      (__merge (fun a b : Nat => decide (a < b)) [1, 3, 5] [2, 3, 6] 10 []).1 :=
  ⟨by unfold SortedBy; decide, by unfold SortedBy; decide, by simp [__merge, copy],
   (merge_sorted (fun a b : Nat => decide (a < b)) natLt_strictWeakOrder [1, 3, 5] [2, 3, 6]
      (by unfold SortedBy; decide) (by unfold SortedBy; decide) 10).1.1⟩

/-! ## Stability of `__merge` -/

theorem mergeTagged_eq {α : Type} (comp : α → α → Bool) (r1 r2 : List α) (result : Nat) :
    mergeTagged comp r1 r2 result = mergeTagged comp r1 r2 0 := by
  unfold mergeTagged
  rw [__merge_acc]
  rfl

theorem mergeTagged_cons_cons {α : Type} (comp : α → α → Bool) (x y : α) (r1 r2 : List α) :
    mergeTagged comp (x :: r1) (y :: r2) 0
      = if comp y x then (y, Origin.second) :: mergeTagged comp (x :: r1) r2 0
        else (x, Origin.first) :: mergeTagged comp r1 (y :: r2) 0 := by
  unfold mergeTagged
  simp only [List.map_cons]
  rw [__merge_cons_cons]
  rfl

theorem mergeTagged_mem {α : Type} (comp : α → α → Bool) (r1 r2 : List α) (p : α × Origin) :
    p ∈ mergeTagged comp r1 r2 0 ↔
      (p.2 = Origin.first ∧ p.1 ∈ r1) ∨ (p.2 = Origin.second ∧ p.1 ∈ r2) := by
  unfold mergeTagged
  rw [(__merge_perm _ _ _).mem_iff]
  obtain ⟨a, o⟩ := p
  cases o <;> simp

theorem mergeTagged_fst {α : Type} (comp : α → α → Bool) (r1 r2 : List α) :
    (mergeTagged comp r1 r2 0).map Prod.fst = (__merge comp r1 r2 0 []).1 := by
  induction r1 generalizing r2 with
  | nil => simp [mergeTagged, __merge_nil_left, Function.comp_def]
  | cons x r1 ih1 =>
    induction r2 with
    | nil => simp [mergeTagged, __merge_nil_right, Function.comp_def]
    | cons y r2 ih2 =>
      rw [mergeTagged_cons_cons, __merge_cons_cons]
      split
      · rw [List.map_cons, ih2]
      · rw [List.map_cons, ih1]

theorem mergeTagged_pairwise {α : Type} (comp : α → α → Bool) (hswo : StrictWeakOrder comp)
    (r1 r2 : List α) (h1 : SortedBy comp r1) (h2 : SortedBy comp r2) :
    (mergeTagged comp r1 r2 0).Pairwise
      (fun p q => p.2 = Origin.second → q.2 = Origin.first → comp p.1 q.1 = true) := by
  unfold SortedBy at *
  induction r1 generalizing r2 with
  | nil =>
    simp only [mergeTagged, List.map_nil, __merge_nil_left, List.pairwise_map]
    exact List.pairwise_of_forall (fun _ _ _ h => by cases h)
  | cons x r1 ih1 =>
    induction r2 with
    | nil =>
      simp only [mergeTagged, List.map_nil, __merge_nil_right, List.pairwise_map]
      exact List.pairwise_of_forall (fun _ _ h => by cases h)
    | cons y r2 ih2 =>
      have hx := List.pairwise_cons.mp h1
      have hy := List.pairwise_cons.mp h2
      rw [mergeTagged_cons_cons]
      split
      · rename_i h
        refine List.pairwise_cons.mpr ⟨?_, ih2 hy.2⟩
        intro q hq _ hfirst
        rcases (mergeTagged_mem comp (x :: r1) r2 q).mp hq with ⟨_, hmem⟩ | ⟨hsecond, _⟩
        · rcases List.mem_cons.mp hmem with hqx | hmem
          · simpa [hqx] using h
          · cases hyq : comp y q.1 with
            | true => rfl
            | false =>
              have := hswo.neg_trans y q.1 x hyq (hx.1 q.1 hmem)
              rw [h] at this
              exact this.symm
        · rw [hfirst] at hsecond
          cases hsecond
      · refine List.pairwise_cons.mpr ⟨?_, ih1 (y :: r2) hx.2 h2⟩
        intro q _ hsecond
        cases hsecond

/-- C9, as stated, fails: strict divisibility is a comparator under which [4, 3] and [2] are
sorted and under which 3 (first range) and 2 (second range) are equivalent, yet `__merge`
writes 2 ahead of 3. -/
theorem merge_stable_counterexample :
    SortedBy properDivisor [4, 3] ∧ SortedBy properDivisor [2] ∧
    mergeTagged properDivisor [4, 3] [2] 0
      = [(2, Origin.second), (4, Origin.first), (3, Origin.first)] ∧
    ¬ (∀ a b, properDivisor a b = false → properDivisor b a = false →
        ∀ pre post, mergeTagged properDivisor [4, 3] [2] 0 = pre ++ (b, Origin.second) :: post →
          (a, Origin.first) ∉ post) := by
  have hout : mergeTagged properDivisor [4, 3] [2] 0
      = [(2, Origin.second), (4, Origin.first), (3, Origin.first)] := by
    simp [mergeTagged, __merge, copy, compTagged, properDivisor]
    decide
  refine ⟨by unfold SortedBy; decide, by unfold SortedBy; decide, hout, ?_⟩
  intro h
  exact h 3 2 (by decide) (by decide) [] [(4, Origin.first), (3, Origin.first)] hout
    (by decide)

/-- C9, amended: for every comparator and every two inputs, at each step the front element
`b` of the second range is written ahead of the front element `a` of the first range exactly
when `comp(b, a)` is true; and for a comparator that is a strict weak ordering and two inputs
sorted under it, `__merge` is stable: an element of the second range that is written ahead
of an element of the first range compares less than it, so whenever `a` of the first range
and `b` of the second range are equivalent, `a` is written before `b`. -/
theorem merge_stable {α : Type} (comp : α → α → Bool) (r1 r2 : List α) (result : Nat) :
    (mergeTagged comp r1 r2 result).map Prod.fst = (__merge comp r1 r2 result []).1 ∧
    (∀ p, p ∈ mergeTagged comp r1 r2 result ↔
      (p.2 = Origin.first ∧ p.1 ∈ r1) ∨ (p.2 = Origin.second ∧ p.1 ∈ r2)) ∧
    (∀ a b t1 t2, r1 = a :: t1 → r2 = b :: t2 →
      (mergeTagged comp r1 r2 result).head?
        = some (if comp b a then (b, Origin.second) else (a, Origin.first))) ∧
    (∀ a b t1 t2,
      mergeTagged comp (a :: t1) (b :: t2) result
        = if comp b a then (b, Origin.second) :: mergeTagged comp (a :: t1) t2 (result + 1)
          else (a, Origin.first) :: mergeTagged comp t1 (b :: t2) (result + 1)) ∧
    (StrictWeakOrder comp → SortedBy comp r1 → SortedBy comp r2 →
      (mergeTagged comp r1 r2 result).Pairwise
        (fun p q => p.2 = Origin.second → q.2 = Origin.first → comp p.1 q.1 = true) ∧
      (∀ a b, comp a b = false → comp b a = false →
        ∀ pre post, mergeTagged comp r1 r2 result = pre ++ (b, Origin.second) :: post →
          (a, Origin.first) ∉ post)) := by
  refine ⟨?_, ?_, ?_, ?_, ?_⟩
  · rw [mergeTagged_eq, mergeTagged_fst, __merge_acc comp r1 r2 result []]
    rfl
  · rw [mergeTagged_eq]
    exact mergeTagged_mem comp r1 r2
  · intro a b t1 t2 ha hb
    subst ha hb
    rw [mergeTagged_eq, mergeTagged_cons_cons]
    split <;> rfl
  · intro a b t1 t2
    rw [mergeTagged_eq, mergeTagged_cons_cons, mergeTagged_eq comp (a :: t1) t2 (result + 1),
      mergeTagged_eq comp t1 (b :: t2) (result + 1)]
  · intro hswo h1 h2
    have hp := mergeTagged_pairwise comp hswo r1 r2 h1 h2
    rw [mergeTagged_eq]
    refine ⟨hp, ?_⟩
    intro a b hab hba pre post hsplit hmem
    rw [hsplit] at hp
    have hcons := (List.pairwise_append.mp hp).2.1
    have := (List.pairwise_cons.mp hcons).1 (a, Origin.first) hmem rfl rfl
    simp only at this
    rw [hba] at this
    exact Bool.noConfusion this

/-- Witness for C9 (amended): merging [1, 3] and [1, 3] under `<`, a strict weak ordering,
and the first step of merging [4, 3] and [2] under strict divisibility, which is none. -/
theorem merge_stable_witness :
    SortedBy (fun a b : Nat => decide (a < b)) [1, 3] ∧
    mergeTagged (fun a b : Nat => decide (a < b)) [1, 3] [1, 3] 0
      = [(1, Origin.first), (1, Origin.second), (3, Origin.first), (3, Origin.second)] ∧
    (mergeTagged (fun a b : Nat => decide (a < b)) [1, 3] [1, 3] 0).Pairwise
      (fun p q => p.2 = Origin.second → q.2 = Origin.first →
        (fun a b : Nat => decide (a < b)) p.1 q.1 = true) ∧
    (mergeTagged properDivisor [4, 3] [2] 0).head?
      = some (if properDivisor 2 4 then (2, Origin.second) else (4, Origin.first)) :=
  ⟨by unfold SortedBy; decide,
   by simp [mergeTagged, __merge, copy, compTagged],
   ((merge_stable (fun a b : Nat => decide (a < b)) [1, 3] [1, 3] 0).2.2.2.2
      natLt_strictWeakOrder (by unfold SortedBy; decide) (by unfold SortedBy; decide)).1,
   (merge_stable properDivisor [4, 3] [2] 0).2.2.1 4 2 [3] [] rfl rfl⟩

/-! ## `shift_left` -/

/-- The effect of the element-wise move loop when the destination is not behind the source:
`count` elements are carried from `first` on to `result` on, and nothing else changes. -/
theorem moveLoop_spec {α : Type} (count : Nat) : ∀ (buf : List α) (first result : Nat),
    result ≤ first → first + count ≤ buf.length →
    (moveLoop buf first result count).2 = result + count ∧
    (moveLoop buf first result count).1.length = buf.length ∧
    (∀ i, i < count → (moveLoop buf first result count).1[result + i]? = buf[first + i]?) ∧
    (∀ j, j < result ∨ result + count ≤ j →
      (moveLoop buf first result count).1[j]? = buf[j]?) := by
  induction count with
  | zero =>
    intro buf first result _ _
    simp [moveLoop]
  | succ k ih =>
    intro buf first result hle hlen
    have hf : first < buf.length := by omega
    have hget : buf[first]? = some buf[first] := List.getElem?_eq_getElem hf
    have hstep : moveLoop buf first result (k + 1)
        = moveLoop (buf.set result buf[first]) (first + 1) (result + 1) k := by
      simp [moveLoop, hget]
    have h := ih (buf.set result buf[first]) (first + 1) (result + 1) (by omega)
      (by rw [List.length_set]; omega)
    rw [hstep]
    refine ⟨by rw [h.1]; omega, by rw [h.2.1, List.length_set], ?_, ?_⟩
    · intro i hi
      cases i with
      | zero =>
        show (moveLoop (buf.set result buf[first]) (first + 1) (result + 1) k).1[result]?
          = buf[first]?
        rw [h.2.2.2 result (Or.inl (by omega)), List.getElem?_set_self (by omega), hget]
      | succ i =>
        have := h.2.2.1 i (by omega)
        rw [show result + (i + 1) = result + 1 + i by omega,
          show first + (i + 1) = first + 1 + i by omega, this,
          List.getElem?_set_ne (by omega)]
    · intro j hj
      rw [h.2.2.2 j (by omega), List.getElem?_set_ne (by omega)]

theorem shift_left_loop_eq (last : Nat) (n : Nat) : ∀ m, m ≤ last →
    shift_left_loop last n m = if m + n ≤ last then some (m + n) else none := by
  induction n with
  | zero => intro m hm; simp [shift_left_loop, hm]
  | succ n ih =>
    intro m hm
    unfold shift_left_loop
    by_cases h : m = last
    · subst h
      simp
    · rw [if_neg h, ih (m + 1) (by omega)]
      by_cases h2 : m + 1 + n ≤ last
      · rw [if_pos h2, if_pos (by omega)]
        congr 1
        omega
      · rw [if_neg h2, if_neg (by omega)]

/-- On a valid range with `0 < n < last - first`, both branches of `shift_left` perform the
same move. -/
theorem shift_left_eq_move {α : Type} (randomAccess : Bool) (buf : List α)
    (first last n : Nat) (hfl : first ≤ last) (hn0 : 0 < n) (hn : n < last - first) :
    shift_left randomAccess buf first last n = move buf (first + n) last first := by
  unfold shift_left
  rw [if_neg (by omega)]
  cases randomAccess with
  | true => simp only [if_true]; rw [if_neg (by omega)]
  | false =>
    simp only [Bool.false_eq_true, if_false]
    rw [shift_left_loop_eq last n first hfl, if_pos (by omega)]

/-- C10: on the range `[first, last)` of length `L = last - first` of a buffer, in the
random-access branch and in the forward-iterator branch alike: with `n = 0`, `shift_left`
returns `last` and changes nothing; with `n ≥ L` it returns `first` and changes nothing; with
`0 < n < L` it returns `first + (L - n)`, the first `L - n` elements of the range afterwards
are the elements that were at offsets `n, ..., L - 1`, in order, and nothing outside these
`L - n` positions changes. -/
theorem shift_left_spec {α : Type} (randomAccess : Bool) (buf : List α) (first last n : Nat)
    (hfl : first ≤ last) (hlen : last ≤ buf.length) :
    (n = 0 → shift_left randomAccess buf first last n = (buf, last)) ∧
    (last - first ≤ n → shift_left randomAccess buf first last n = (buf, first)) ∧
    (0 < n → n < last - first →
      (shift_left randomAccess buf first last n).2 = first + (last - first - n) ∧
      (shift_left randomAccess buf first last n).1.length = buf.length ∧
      (∀ i, i < last - first - n →
        (shift_left randomAccess buf first last n).1[first + i]? = buf[first + n + i]?) ∧
      (∀ j, j < first ∨ first + (last - first - n) ≤ j →
        (shift_left randomAccess buf first last n).1[j]? = buf[j]?)) := by
  refine ⟨?_, ?_, ?_⟩
  · intro h0
    simp [shift_left, h0]
  · intro hge
    unfold shift_left
    by_cases h0 : n = 0
    · rw [if_pos h0]
      have : last = first := by omega
      rw [this]
    · rw [if_neg h0]
      cases randomAccess with
      | true => simp only [if_true]; rw [if_pos (by omega)]
      | false =>
        simp only [Bool.false_eq_true, if_false]
        rw [shift_left_loop_eq last n first hfl]
        by_cases h : first + n ≤ last
        · rw [if_pos h]
          have hm : first + n = last := by omega
          simp [move, moveLoop, hm]
        · rw [if_neg h]
  · intro hn0 hn
    rw [shift_left_eq_move randomAccess buf first last n hfl hn0 hn]
    unfold move
    have h := moveLoop_spec (last - (first + n)) buf (first + n) first (by omega) (by omega)
    rw [show last - first - n = last - (first + n) by omega]
    exact h

/-- Witness for C10: shifting the range [1, 4) of [1, 2, 3, 4, 5] left by one, with forward
iterators. -/
theorem shift_left_spec_witness :
    shift_left false [1, 2, 3, 4, 5] 1 4 1 = ([1, 3, 4, 4, 5], 3) ∧
    (shift_left false [1, 2, 3, 4, 5] 1 4 1).2 = 1 + (4 - 1 - 1) ∧
    shift_left true [1, 2, 3, 4, 5] 0 5 0 = ([1, 2, 3, 4, 5], 5) ∧
    shift_left true [1, 2, 3, 4, 5] 0 5 7 = ([1, 2, 3, 4, 5], 0) :=
  ⟨by decide,
   ((shift_left_spec false [1, 2, 3, 4, 5] 1 4 1 (by decide) (by decide)).2.2
      (by decide) (by decide)).1,
   (shift_left_spec true [1, 2, 3, 4, 5] 0 5 0 (by decide) (by decide)).1 rfl,
   (shift_left_spec true [1, 2, 3, 4, 5] 0 5 7 (by decide) (by decide)).2.1 (by decide)⟩

/-! ## `shift_right` -/

/-- The effect of the element-wise move loop when the destination lies behind the whole
source: `count` elements are carried from `first` on to `result` on, and nothing else
changes. -/
theorem moveLoop_spec_disjoint {α : Type} (count : Nat) :
    ∀ (buf : List α) (first result : Nat),
    first + count ≤ result → result + count ≤ buf.length →
    (moveLoop buf first result count).2 = result + count ∧
    (moveLoop buf first result count).1.length = buf.length ∧
    (∀ i, i < count → (moveLoop buf first result count).1[result + i]? = buf[first + i]?) ∧
    (∀ j, j < result ∨ result + count ≤ j →
      (moveLoop buf first result count).1[j]? = buf[j]?) := by
  induction count with
  | zero =>
    intro buf first result _ _
    simp [moveLoop]
  | succ k ih =>
    intro buf first result hle hlen
    have hf : first < buf.length := by omega
    have hget : buf[first]? = some buf[first] := List.getElem?_eq_getElem hf
    have hstep : moveLoop buf first result (k + 1)
        = moveLoop (buf.set result buf[first]) (first + 1) (result + 1) k := by
      simp [moveLoop, hget]
    have h := ih (buf.set result buf[first]) (first + 1) (result + 1) (by omega)
      (by rw [List.length_set]; omega)
    rw [hstep]
    refine ⟨by rw [h.1]; omega, by rw [h.2.1, List.length_set], ?_, ?_⟩
    · intro i hi
      cases i with
      | zero =>
        show (moveLoop (buf.set result buf[first]) (first + 1) (result + 1) k).1[result]?
          = buf[first]?
        rw [h.2.2.2 result (Or.inl (by omega)), List.getElem?_set_self (by omega), hget]
      | succ i =>
        have := h.2.2.1 i (by omega)
        rw [show result + (i + 1) = result + 1 + i by omega,
          show first + (i + 1) = first + 1 + i by omega, this,
          List.getElem?_set_ne (by omega)]
    · intro j hj
      rw [h.2.2.2 j (by omega), List.getElem?_set_ne (by omega)]

/-- The effect of the element-wise backward move loop when the destination does not end
before the source does: `count` elements are carried from the positions ending at `last` to
the positions ending at `result`, and nothing else changes. -/
theorem moveBackwardLoop_spec {α : Type} (count : Nat) :
    ∀ (buf : List α) (last result : Nat),
    last ≤ result → count ≤ last → result ≤ buf.length →
    (moveBackwardLoop buf last result count).2 = result - count ∧
    (moveBackwardLoop buf last result count).1.length = buf.length ∧
    (∀ i, i < count →
      (moveBackwardLoop buf last result count).1[result - 1 - i]? = buf[last - 1 - i]?) ∧
    (∀ j, j < result - count ∨ result ≤ j →
      (moveBackwardLoop buf last result count).1[j]? = buf[j]?) := by
  induction count with
  | zero =>
    intro buf last result _ _ _
    simp [moveBackwardLoop]
  | succ k ih =>
    intro buf last result hle hcount hlen
    have hf : last - 1 < buf.length := by omega
    have hget : buf[last - 1]? = some buf[last - 1] := List.getElem?_eq_getElem hf
    have hstep : moveBackwardLoop buf last result (k + 1)
        = moveBackwardLoop (buf.set (result - 1) buf[last - 1]) (last - 1) (result - 1) k := by
      simp [moveBackwardLoop, hget]
    have h := ih (buf.set (result - 1) buf[last - 1]) (last - 1) (result - 1) (by omega)
      (by omega) (by rw [List.length_set]; omega)
    rw [hstep]
    refine ⟨by rw [h.1]; omega, by rw [h.2.1, List.length_set], ?_, ?_⟩
    · intro i hi
      cases i with
      | zero =>
        show (moveBackwardLoop (buf.set (result - 1) buf[last - 1]) (last - 1) (result - 1)
          k).1[result - 1]? = buf[last - 1]?
        rw [h.2.2.2 (result - 1) (Or.inr (by omega)), List.getElem?_set_self (by omega), hget]
      | succ i =>
        have := h.2.2.1 i (by omega)
        rw [show result - 1 - (i + 1) = result - 1 - 1 - i by omega,
          show last - 1 - (i + 1) = last - 1 - 1 - i by omega, this,
          List.getElem?_set_ne (by omega)]
    · intro j hj
      rw [h.2.2.2 j (by omega), List.getElem?_set_ne (by omega)]

theorem shift_right_bidir_loop_eq (first : Nat) (n : Nat) : ∀ m, first ≤ m →
    shift_right_bidir_loop first n m = if first + n ≤ m then some (m - n) else none := by
  induction n with
  | zero => intro m hm; simp [shift_right_bidir_loop, hm]
  | succ n ih =>
    intro m hm
    unfold shift_right_bidir_loop
    by_cases h : m = first
    · subst h
      simp
    · rw [if_neg h, ih (m - 1) (by omega)]
      by_cases h2 : first + n ≤ m - 1
      · rw [if_pos h2, if_pos (by omega)]
        congr 1
        omega
      · rw [if_neg h2, if_neg (by omega)]

theorem shift_right_ret_loop_eq (last : Nat) (n : Nat) : ∀ m, m ≤ last →
    shift_right_ret_loop last n m = if m + n ≤ last then some (m + n) else none := by
  induction n with
  | zero => intro m hm; simp [shift_right_ret_loop, hm]
  | succ n ih =>
    intro m hm
    unfold shift_right_ret_loop
    by_cases h : m = last
    · subst h
      simp
    · rw [if_neg h, ih (m + 1) (by omega)]
      by_cases h2 : m + 1 + n ≤ last
      · rw [if_pos h2, if_pos (by omega)]
        congr 1
        omega
      · rw [if_neg h2, if_neg (by omega)]

theorem swapAt_spec {α : Type} (buf : List α) (a b : Nat) (ha : a < buf.length)
    (hb : b < buf.length) (hab : a ≠ b) :
    (swapAt buf a b).length = buf.length ∧
    (swapAt buf a b)[a]? = buf[b]? ∧
    (swapAt buf a b)[b]? = buf[a]? ∧
    (∀ p, p ≠ a → p ≠ b → (swapAt buf a b)[p]? = buf[p]?) := by
  have hga : buf[a]? = some buf[a] := List.getElem?_eq_getElem ha
  have hgb : buf[b]? = some buf[b] := List.getElem?_eq_getElem hb
  have hs : swapAt buf a b = (buf.set a buf[b]).set b buf[a] := by
    simp [swapAt, hga, hgb]
  rw [hs]
  refine ⟨by simp, ?_, ?_, ?_⟩
  · rw [List.getElem?_set_ne (by omega), List.getElem?_set_self ha, hgb]
  · rw [List.getElem?_set_self (by rw [List.length_set]; exact hb), hga]
  · intro p hpa hpb
    rw [List.getElem?_set_ne (by omega), List.getElem?_set_ne (by omega)]

/-- The window loop of the forward branch, started `t` steps in: it leaves through the
`return` when fewer than `n` elements follow `ret`, and else ends with the window
`[ret, ret + n)`. -/
theorem shift_right_window_eq {α : Type} (buf : List α) (first last n : Nat) (fuel : Nat) :
    ∀ t, t ≤ n → first + n + t ≤ last → n - t < fuel →
    shift_right_window buf first last (first + n) fuel (first + t) (first + n + t)
      = if last - (first + n) < n then
          some (WindowExit.returned
            (move buf first (first + (last - (first + n))) (first + n)).1 (first + n))
        else some (WindowExit.finished (first + n) (first + n + n)) := by
  induction fuel with
  | zero => intro t _ _ h; omega
  | succ fuel ih =>
    intro t ht hlead hfuel
    unfold shift_right_window
    by_cases h1 : first + t = first + n
    · have htn : t = n := by omega
      subst htn
      rw [if_pos rfl, if_neg (by omega)]
    · rw [if_neg h1]
      by_cases h2 : first + n + t = last
      · rw [if_pos h2, if_pos (by omega)]
        have : first + (last - (first + n)) = first + t := by omega
        rw [this]
      · rw [if_neg h2]
        exact ih (t + 1) (by omega) (by omega) (by omega)

/-- The end of the sliding loop: the scratch space, read cyclically from `mid`, is moved
behind the elements already in place. -/
theorem shift_right_slide_finish {α : Type} (buf0 buf : List α) (first last n j c : Nat)
    (hlen : last ≤ buf0.length) (hbl : buf.length = buf0.length) (hc : c < n)
    (hlast : first + n + n + j = last)
    (h1 : ∀ s, s < n - c → buf[first + c + s]? = buf0[first + j + s]?)
    (h2 : ∀ s, s < c → buf[first + s]? = buf0[first + j + (n - c) + s]?)
    (h3 : ∀ t, t < j → buf[first + n + t]? = buf0[first + t]?)
    (h4 : ∀ p, p < first ∨ first + n + j ≤ p → buf[p]? = buf0[p]?) :
    (move (move buf (first + c) (first + n) (first + n + j)).1 first (first + c)
        (move buf (first + c) (first + n) (first + n + j)).2).1.length = buf0.length ∧
    (∀ i, i < last - first - n →
      (move (move buf (first + c) (first + n) (first + n + j)).1 first (first + c)
        (move buf (first + c) (first + n) (first + n + j)).2).1[first + n + i]?
        = buf0[first + i]?) ∧
    (∀ p, p < first ∨ last ≤ p →
      (move (move buf (first + c) (first + n) (first + n + j)).1 first (first + c)
        (move buf (first + c) (first + n) (first + n + j)).2).1[p]? = buf0[p]?) := by
  unfold move
  have e1 : first + n - (first + c) = n - c := by omega
  have e2 : first + c - first = c := by omega
  rw [e1, e2]
  have m1 := moveLoop_spec_disjoint (n - c) buf (first + c) (first + n + j) (by omega)
    (by omega)
  obtain ⟨m1r, m1l, m1a, m1b⟩ := m1
  rw [m1r]
  have m2 := moveLoop_spec_disjoint c (moveLoop buf (first + c) (first + n + j) (n - c)).1
    first (first + n + j + (n - c)) (by omega) (by rw [m1l]; omega)
  obtain ⟨_, m2l, m2a, m2b⟩ := m2
  refine ⟨by rw [m2l, m1l, hbl], ?_, ?_⟩
  · intro i hi
    by_cases hij : i < j
    · rw [m2b (first + n + i) (Or.inl (by omega)), m1b (first + n + i) (Or.inl (by omega))]
      exact h3 i hij
    · by_cases hi2 : i < j + (n - c)
      · rw [m2b (first + n + i) (Or.inl (by omega))]
        have := m1a (i - j) (by omega)
        rw [show first + n + j + (i - j) = first + n + i by omega] at this
        rw [this, h1 (i - j) (by omega)]
        congr 1
        omega
      · have := m2a (i - j - (n - c)) (by omega)
        rw [show first + n + j + (n - c) + (i - j - (n - c)) = first + n + i by omega] at this
        rw [this, m1b (first + (i - j - (n - c))) (Or.inl (by omega)),
          h2 (i - j - (n - c)) (by omega)]
        congr 1
        omega
  · intro p hp
    rw [m2b p (by omega), m1b p (by omega)]
    exact h4 p (by omega)

/-- The sliding loop of the forward branch ends, with the elements of the range shifted.
Before each pass the scratch space `[first, first + n)`, read cyclically from `mid`, holds
the `n` elements that come next, the `j` positions before `trail` are in place, and the rest
is untouched. -/
theorem shift_right_slide_spec {α : Type} (buf0 : List α) (first last n : Nat)
    (hlen : last ≤ buf0.length) (fuel : Nat) :
    ∀ (buf : List α) (j c : Nat),
    buf.length = buf0.length → c < n → first + n + n + j ≤ last →
    last - (first + n + n + j) < fuel →
    (∀ s, s < n - c → buf[first + c + s]? = buf0[first + j + s]?) →
    (∀ s, s < c → buf[first + s]? = buf0[first + j + (n - c) + s]?) →
    (∀ t, t < j → buf[first + n + t]? = buf0[first + t]?) →
    (∀ p, p < first ∨ first + n + j ≤ p → buf[p]? = buf0[p]?) →
    ∃ buf1, shift_right_slide first last (first + n) fuel buf (first + c) (first + n + j)
        (first + n + n + j) = some (buf1, first + n) ∧
      buf1.length = buf0.length ∧
      (∀ i, i < last - first - n → buf1[first + n + i]? = buf0[first + i]?) ∧
      (∀ p, p < first ∨ last ≤ p → buf1[p]? = buf0[p]?) := by
  induction fuel with
  | zero => intro buf j c _ _ _ h; omega
  | succ fuel ih =>
    intro buf j c hbl hc hlead hfuel h1 h2 h3 h4
    unfold shift_right_slide
    by_cases hl : first + n + n + j = last
    · rw [if_pos hl]
      exact ⟨_, rfl, shift_right_slide_finish buf0 buf first last n j c hlen hbl hc hl
        h1 h2 h3 h4⟩
    · rw [if_neg hl]
      obtain ⟨sl, sa, sb, so⟩ := swapAt_spec buf (first + c) (first + n + j) (by omega)
        (by omega) (by omega)
      have sa' : (swapAt buf (first + c) (first + n + j))[first + c]?
          = buf0[first + n + j]? := by
        rw [sa]; exact h4 _ (Or.inr (le_refl _))
      have sb' : (swapAt buf (first + c) (first + n + j))[first + n + j]?
          = buf0[first + j]? := by
        rw [sb]; exact h1 0 (by omega)
      by_cases hcn : c + 1 = n
      · rw [if_pos (by omega)]
        have := ih (swapAt buf (first + c) (first + n + j)) (j + 1) 0 (by rw [sl, hbl])
          (by omega) (by omega) (by omega) ?_ ?_ ?_ ?_
        · simpa [Nat.add_assoc] using this
        · intro s hs
          by_cases hsc : s = c
          · subst hsc
            rw [Nat.add_zero, sa']
            congr 1
            omega
          · rw [Nat.add_zero, so (first + s) (by omega) (by omega), h2 s (by omega)]
            congr 1
            omega
        · intro s hs
          omega
        · intro t ht
          by_cases htj : t = j
          · subst htj
            exact sb'
          · rw [so (first + n + t) (by omega) (by omega)]
            exact h3 t (by omega)
        · intro p hp
          rw [so p (by omega) (by omega)]
          exact h4 p (by omega)
      · rw [if_neg (by omega)]
        have := ih (swapAt buf (first + c) (first + n + j)) (j + 1) (c + 1) (by rw [sl, hbl])
          (by omega) (by omega) (by omega) ?_ ?_ ?_ ?_
        · simpa [Nat.add_assoc] using this
        · intro s hs
          rw [so (first + (c + 1) + s) (by omega) (by omega)]
          have := h1 (s + 1) (by omega)
          rw [show first + (c + 1) + s = first + c + (s + 1) by omega, this]
          congr 1
          omega
        · intro s hs
          by_cases hsc : s = c
          · subst hsc
            rw [sa']
            congr 1
            omega
          · rw [so (first + s) (by omega) (by omega), h2 s (by omega)]
            congr 1
            omega
        · intro t ht
          by_cases htj : t = j
          · subst htj
            exact sb'
          · rw [so (first + n + t) (by omega) (by omega)]
            exact h3 t (by omega)
        · intro p hp
          rw [so p (by omega) (by omega)]
          exact h4 p (by omega)

/-- The backward move that closes the random-access and bidirectional branches of
`shift_right`. -/
theorem shift_right_move_backward {α : Type} (buf : List α) (first last n : Nat)
    (hfl : first ≤ last) (hlen : last ≤ buf.length) (hn : n < last - first) :
    (move_backward buf first (first + (last - first - n)) last).2 = first + n ∧
    (move_backward buf first (first + (last - first - n)) last).1.length = buf.length ∧
    (∀ i, i < last - first - n →
      (move_backward buf first (first + (last - first - n)) last).1[first + n + i]?
        = buf[first + i]?) ∧
    (∀ p, p < first + n ∨ last ≤ p →
      (move_backward buf first (first + (last - first - n)) last).1[p]? = buf[p]?) := by
  unfold move_backward
  have e : first + (last - first - n) - first = last - first - n := by omega
  rw [e]
  obtain ⟨hr, hl, ha, hb⟩ := moveBackwardLoop_spec (last - first - n) buf
    (first + (last - first - n)) last (by omega) (by omega) hlen
  refine ⟨by rw [hr]; omega, hl, ?_, ?_⟩
  · intro i hi
    have := ha (last - first - n - 1 - i) (by omega)
    rw [show last - 1 - (last - first - n - 1 - i) = first + n + i by omega,
      show first + (last - first - n) - 1 - (last - first - n - 1 - i) = first + i by omega]
      at this
    exact this
  · intro p hp
    exact hb p (by omega)

/-- C11: on the range `[first, last)` of length `L = last - first` of a buffer, in the
random-access branch, in the bidirectional branch and in the forward-only branch alike, and
with any fuel above `L` for the loops of the forward-only branch (which therefore end): with
`n = 0`, `shift_right` returns `first` and changes nothing; with `n ≥ L` it returns `last` and
changes nothing; with `0 < n < L` it returns `first + n`, the elements at the offsets
`n, ..., L - 1` of the range afterwards are the elements that were at the offsets
`0, ..., L - n - 1`, in order, and nothing outside the range changes. -/
theorem shift_right_spec {α : Type} (randomAccess bidirectional : Bool) (fuel : Nat)
    (buf : List α) (first last n : Nat) (hfl : first ≤ last) (hlen : last ≤ buf.length)
    (hfuel : last - first < fuel) :
    (n = 0 → shift_right randomAccess bidirectional fuel buf first last n = some (buf, first)) ∧
    (last - first ≤ n →
      shift_right randomAccess bidirectional fuel buf first last n = some (buf, last)) ∧
    (0 < n → n < last - first →
      ∃ buf1, shift_right randomAccess bidirectional fuel buf first last n
          = some (buf1, first + n) ∧
        buf1.length = buf.length ∧
        (∀ i, i < last - first - n → buf1[first + n + i]? = buf[first + i]?) ∧
        (∀ p, p < first ∨ last ≤ p → buf1[p]? = buf[p]?)) := by
  refine ⟨?_, ?_, ?_⟩
  · intro h0
    simp [shift_right, h0]
  · intro hge
    unfold shift_right
    by_cases h0 : n = 0
    · rw [if_pos h0]
      have : last = first := by omega
      rw [this]
    · rw [if_neg h0]
      cases randomAccess with
      | true => simp only [if_true]; rw [if_pos (by omega)]
      | false =>
        cases bidirectional with
        | true =>
          simp only [Bool.false_eq_true, if_false, if_true]
          rw [shift_right_bidir_loop_eq first n last hfl]
          by_cases h : first + n ≤ last
          · rw [if_pos h]
            have hm : last - n = first := by omega
            simp [move_backward, moveBackwardLoop, hm]
          · rw [if_neg h]
        | false =>
          simp only [Bool.false_eq_true, if_false]
          rw [shift_right_ret_loop_eq last n first hfl]
          by_cases h : first + n ≤ last
          · rw [if_pos h]
            have hw := shift_right_window_eq buf first last n fuel 0 (by omega) (by omega)
              (by omega)
            simp only [Nat.add_zero] at hw
            simp only [hw]
            rw [if_pos (by omega)]
            have hm : last - (first + n) = 0 := by omega
            have hl : first + n = last := by omega
            simp [move, moveLoop, hm, hl]
          · rw [if_neg h]
  · intro hn0 hn
    unfold shift_right
    rw [if_neg (by omega)]
    obtain ⟨br, bl, ba, bb⟩ := shift_right_move_backward buf first last n hfl hlen hn
    cases randomAccess with
    | true =>
      simp only [if_true]
      rw [if_neg (by omega)]
      exact ⟨_, by rw [← br], bl, ba, fun p hp => bb p (by omega)⟩
    | false =>
      cases bidirectional with
      | true =>
        simp only [Bool.false_eq_true, if_false, if_true]
        rw [shift_right_bidir_loop_eq first n last hfl, if_pos (by omega)]
        have hm : last - n = first + (last - first - n) := by omega
        simp only [hm]
        exact ⟨_, by rw [← br], bl, ba, fun p hp => bb p (by omega)⟩
      | false =>
        simp only [Bool.false_eq_true, if_false]
        rw [shift_right_ret_loop_eq last n first hfl, if_pos (by omega)]
        have hw := shift_right_window_eq buf first last n fuel 0 (by omega) (by omega)
          (by omega)
        simp only [Nat.add_zero] at hw
        simp only [hw]
        by_cases hshort : last - (first + n) < n
        · rw [if_pos hshort]
          simp only
          obtain ⟨_, ml, ma, mb⟩ := moveLoop_spec_disjoint (last - first - n) buf first
            (first + n) (by omega) (by omega)
          have e : first + (last - (first + n)) - first = last - first - n := by omega
          refine ⟨_, rfl, ?_, ?_, ?_⟩
          · unfold move; rw [e]; exact ml
          · intro i hi
            unfold move; rw [e]; exact ma i hi
          · intro p hp
            unfold move; rw [e]; exact mb p (by omega)
        · rw [if_neg hshort]
          simp only
          have hs := shift_right_slide_spec buf first last n hlen fuel buf 0 0 rfl hn0
            (by omega) (by omega) (fun s _ => rfl) (fun s hs => by omega)
            (fun t ht => by omega) (fun p _ => rfl)
          simpa using hs

/-- Witness for C11: shifting the range [1, 6) of a nine-element buffer right by two, with
forward-only iterators and with random-access iterators, and the cases `n = 0` and `n ≥ L`. -/
theorem shift_right_spec_witness :
    shift_right false false 6 [0, 1, 2, 3, 4, 5, 6, 7, 9] 1 6 2
      = some ([0, 3, 2, 1, 2, 3, 6, 7, 9], 3) ∧
    (∃ buf1, shift_right true false 6 [0, 1, 2, 3, 4, 5, 6, 7, 9] 1 6 2 = some (buf1, 1 + 2) ∧
      buf1.length = [0, 1, 2, 3, 4, 5, 6, 7, 9].length ∧
      (∀ i, i < 6 - 1 - 2 → buf1[1 + 2 + i]? = [0, 1, 2, 3, 4, 5, 6, 7, 9][1 + i]?) ∧
      (∀ p, p < 1 ∨ 6 ≤ p → buf1[p]? = [0, 1, 2, 3, 4, 5, 6, 7, 9][p]?)) ∧
    shift_right false false 6 [0, 1, 2, 3, 4, 5, 6, 7, 9] 1 6 0
      = some ([0, 1, 2, 3, 4, 5, 6, 7, 9], 1) ∧
    shift_right false false 6 [0, 1, 2, 3, 4, 5, 6, 7, 9] 1 6 5
      = some ([0, 1, 2, 3, 4, 5, 6, 7, 9], 6) :=
  ⟨by decide,
   (shift_right_spec true false 6 [0, 1, 2, 3, 4, 5, 6, 7, 9] 1 6 2 (by decide) (by decide)
      (by decide)).2.2 (by decide) (by decide),
   (shift_right_spec false false 6 [0, 1, 2, 3, 4, 5, 6, 7, 9] 1 6 0 (by decide) (by decide)
      (by decide)).1 rfl,
   (shift_right_spec false false 6 [0, 1, 2, 3, 4, 5, 6, 7, 9] 1 6 5 (by decide) (by decide)
      (by decide)).2.1 (by decide)⟩

/-! ## `ranges::advance` -/

/-- On the values of a signed type of `w` bits, `__abs` is the absolute value. -/
theorem __abs_eq (w : Nat) (n : Int) (hw : 0 < w) (hlo : -(2 : Int) ^ (w - 1) ≤ n)
    (hhi : n < (2 : Int) ^ (w - 1)) : __abs w n = n.natAbs := by
  obtain ⟨v, rfl⟩ : ∃ v, w = v + 1 := ⟨w - 1, by omega⟩
  simp only [Nat.add_sub_cancel] at hlo hhi
  have hcast : ((2 ^ v : Nat) : Int) = (2 : Int) ^ v := by push_cast; rfl
  have hpos : 0 < 2 ^ v := Nat.two_pow_pos v
  have hpowN : 2 ^ (v + 1) = 2 ^ v * 2 := pow_succ 2 v
  have hpowZ : (2 : Int) ^ (v + 1) = (2 : Int) ^ v * 2 := pow_succ 2 v
  unfold __abs
  rw [hpowZ, hpowN, ← hcast]
  rw [← hcast] at hlo hhi
  generalize 2 ^ v = P at *
  by_cases hneg : n < 0
  · rw [if_pos hneg]
    have hmod : n % ((P : Int) * 2) = n + (P : Int) * 2 := by
      rw [← Int.add_mul_emod_self_left n ((P : Int) * 2) 1, mul_one]
      exact Int.emod_eq_of_lt (by omega) (by omega)
    rw [hmod]
    have h1 : (n + (P : Int) * 2).toNat = P * 2 - n.natAbs := by omega
    rw [h1]
    have h2 : P * 2 - 1 - (P * 2 - n.natAbs) + 1 = n.natAbs := by omega
    rw [h2]
    exact Nat.mod_eq_of_lt (by omega)
  · rw [if_neg hneg]
    rw [Int.emod_eq_of_lt (by omega) (by omega)]
    omega

theorem __advance_forward_eq (k : Nat) : ∀ (i n : Int), n.toNat = k →
    __advance_forward i n = if 0 < n then i + n else i := by
  induction k with
  | zero =>
    intro i n hk
    rw [__advance_forward]
    have : ¬ 0 < n := by omega
    rw [if_neg this, if_neg this]
  | succ k ih =>
    intro i n hk
    rw [__advance_forward]
    have hn : 0 < n := by omega
    rw [if_pos hn, if_pos hn, ih (i + 1) (n - 1) (by omega)]
    split <;> omega

theorem __advance_backward_eq (k : Nat) : ∀ (i n : Int), (-n).toNat = k →
    __advance_backward i n = if n < 0 then i + n else i := by
  induction k with
  | zero =>
    intro i n hk
    rw [__advance_backward]
    have : ¬ n < 0 := by omega
    rw [if_neg this, if_neg this]
  | succ k ih =>
    intro i n hk
    rw [__advance_backward]
    have hn : n < 0 := by omega
    rw [if_pos hn, if_pos hn, ih (i - 1) (n + 1) (by omega)]
    split <;> omega

/-- `ranges::advance(i, n)` moves `i` by `n`; a negative `n` needs a bidirectional iterator. -/
theorem advance_n_eq (c : IterConcepts) (i n : Int)
    (hneg : n < 0 → c.random_access_iterator = true ∨ c.bidirectional_iterator = true) :
    advance_n c i n = i + n := by
  unfold advance_n
  by_cases hr : c.random_access_iterator = true
  · rw [if_pos hr]
  · rw [if_neg hr]
    by_cases hb : c.bidirectional_iterator = true
    · rw [if_pos hb, __advance_forward_eq _ i n rfl, __advance_backward_eq _ _ n rfl]
      by_cases h1 : 0 < n
      · rw [if_pos h1, if_neg (by omega)]
      · rw [if_neg h1]
        by_cases h2 : n < 0
        · rw [if_pos h2]
        · rw [if_neg h2]; omega
    · rw [if_neg hb, __advance_forward_eq _ i n rfl]
      by_cases h1 : 0 < n
      · rw [if_pos h1]
      · rw [if_neg h1]
        by_cases h2 : n < 0
        · rcases hneg h2 with h | h
          · exact absurd h hr
          · exact absurd h hb
        · omega

theorem advance_until_eq (k : Nat) : ∀ (fuel : Nat) (i : Int), k < fuel →
    advance_until fuel i (i + k) = some (i + k) := by
  induction k with
  | zero =>
    intro fuel i hf
    obtain ⟨f, rfl⟩ : ∃ f, fuel = f + 1 := ⟨fuel - 1, by omega⟩
    simp [advance_until]
  | succ k ih =>
    intro fuel i hf
    obtain ⟨f, rfl⟩ : ∃ f, fuel = f + 1 := ⟨fuel - 1, by omega⟩
    unfold advance_until
    rw [if_pos (by push_cast; omega)]
    have := ih f (i + 1) (by omega)
    rw [show i + 1 + (k : Int) = i + ((k + 1 : Nat) : Int) by push_cast; omega] at this
    exact this

theorem advance_bounded_forward_eq (k : Nat) : ∀ (i n bound : Int), n.toNat = k →
    i ≤ bound ∨ n ≤ 0 →
    advance_bounded_forward i n bound
      = if 0 < n then (if n < bound - i then (i + n, 0) else (bound, n - (bound - i)))
        else (i, n) := by
  induction k with
  | zero =>
    intro i n bound hk _
    rw [advance_bounded_forward]
    have : ¬ 0 < n := by omega
    rw [if_neg (by omega), if_neg this]
  | succ k ih =>
    intro i n bound hk hle
    rw [advance_bounded_forward]
    have hn : 0 < n := by omega
    rw [if_pos hn]
    by_cases hib : i = bound
    · rw [if_neg (by simp [hib]), if_neg (by omega)]
      simp [hib]
    · rw [if_pos ⟨hib, hn⟩, ih (i + 1) (n - 1) bound (by omega) (by omega)]
      by_cases h1 : 0 < n - 1
      · rw [if_pos h1]
        by_cases h2 : n - 1 < bound - (i + 1)
        · rw [if_pos h2, if_pos (by omega)]
          congr 1
          omega
        · rw [if_neg h2, if_neg (by omega)]
          congr 1
          omega
      · rw [if_neg h1]
        by_cases h2 : n < bound - i
        · rw [if_pos h2]
          congr 1 <;> omega
        · rw [if_neg h2]
          congr 1 <;> omega

theorem advance_bounded_backward_eq (k : Nat) : ∀ (i n bound : Int), (-n).toNat = k →
    bound ≤ i ∨ 0 ≤ n →
    advance_bounded_backward i n bound
      = if n < 0 then (if -n < i - bound then (i + n, 0) else (bound, n - (bound - i)))
        else (i, n) := by
  induction k with
  | zero =>
    intro i n bound hk _
    rw [advance_bounded_backward]
    have : ¬ n < 0 := by omega
    rw [if_neg (by omega), if_neg this]
  | succ k ih =>
    intro i n bound hk hle
    rw [advance_bounded_backward]
    have hn : n < 0 := by omega
    rw [if_pos hn]
    by_cases hib : i = bound
    · rw [if_neg (by simp [hib]), if_neg (by omega)]
      simp [hib]
    · rw [if_pos ⟨hib, hn⟩, ih (i - 1) (n + 1) bound (by omega) (by omega)]
      by_cases h1 : n + 1 < 0
      · rw [if_pos h1]
        by_cases h2 : -(n + 1) < i - 1 - bound
        · rw [if_pos h2, if_pos (by omega)]
          congr 1
          omega
        · rw [if_neg h2, if_neg (by omega)]
          congr 1
          omega
      · rw [if_neg h1]
        by_cases h2 : -n < i - bound
        · rw [if_pos h2]
          congr 1 <;> omega
        · rw [if_neg h2]
          congr 1 <;> omega

/-- C12: under the documented preconditions (`n > 0`: `bound` is reachable forward from `i`;
`n < 0`: `i` is reachable forward from `bound`, the iterator is bidirectional and the
sentinel has the iterator type; `n = 0`: either), and for `n` and `bound - i` values of the
`w`-bit difference type, `ranges::advance(i, n, bound)` returns, moves `i` by `M`, where
`M = n` if `|n| < |bound - i|` and `M = bound - i` otherwise, and returns `n - M`; the
sized-sentinel branch and the looping branch give the same final position and the same
value. -/
theorem advance_n_bound_spec (c : IterConcepts) (w fuel : Nat) (i n bound : Int)
    (hw : 0 < w)
    (hn : -(2 : Int) ^ (w - 1) ≤ n ∧ n < (2 : Int) ^ (w - 1))
    (hM : -(2 : Int) ^ (w - 1) ≤ bound - i ∧ bound - i < (2 : Int) ^ (w - 1))
    (hpos : 0 < n → i ≤ bound)
    (hneg : n < 0 → bound ≤ i ∧ c.bidirectional_iterator = true ∧ c.same_as = true) :
    advance_n_bound c w fuel i n bound
      = some (i + (if n.natAbs < (bound - i).natAbs then n else bound - i),
          n - (if n.natAbs < (bound - i).natAbs then n else bound - i)) ∧
    advance_n_bound { c with sized_sentinel_for := true } w fuel i n bound
      = advance_n_bound { c with sized_sentinel_for := false } w fuel i n bound := by
  have key : ∀ d : IterConcepts,
      (n < 0 → d.bidirectional_iterator = true ∧ d.same_as = true) →
      advance_n_bound d w fuel i n bound
        = some (i + (if n.natAbs < (bound - i).natAbs then n else bound - i),
            n - (if n.natAbs < (bound - i).natAbs then n else bound - i)) := by
    intro d hd
    unfold advance_n_bound
    by_cases hs : d.sized_sentinel_for = true
    · rw [if_pos hs, __abs_eq w n hw hn.1 hn.2, __abs_eq w (bound - i) hw hM.1 hM.2]
      by_cases habs : n.natAbs ≥ (bound - i).natAbs
      · rw [if_pos habs, if_neg (by omega)]
        have hb : advance_bound d fuel i bound = some bound := by
          unfold advance_bound
          by_cases ha : d.assignable_from = true
          · rw [if_pos ha]
          · rw [if_neg ha, if_pos hs, advance_n_eq d i (bound - i)
              (fun h => Or.inr (hd (by omega)).1)]
            congr 1
            omega
        rw [hb]
        simp
      · rw [if_neg habs, if_pos (by omega),
          advance_n_eq d i n (fun h => Or.inr (hd h).1)]
        simp
    · rw [if_neg hs]
      have hf := advance_bounded_forward_eq _ i n bound rfl (by omega)
      by_cases h0 : 0 < n
      · have hib := hpos h0
        rw [if_pos h0] at hf
        have hback : ∀ r : Int × Int, 0 ≤ r.2 →
            advance_bounded_backward r.1 r.2 bound = r := by
          intro r hr
          rw [advance_bounded_backward_eq _ r.1 r.2 bound rfl (Or.inr hr), if_neg (by omega)]
        have hres : advance_bounded_forward i n bound
            = (i + (if n.natAbs < (bound - i).natAbs then n else bound - i),
                n - (if n.natAbs < (bound - i).natAbs then n else bound - i)) := by
          rw [hf]
          by_cases h1 : n < bound - i
          · rw [if_pos h1, if_pos (by omega)]
            congr 1
            omega
          · rw [if_neg h1, if_neg (by omega)]
            congr 1
            omega
        split
        · rw [hback _ (by rw [hres]; simp only; split <;> omega), hres]
        · rw [hres]
      · rw [if_neg h0] at hf
        rw [hf]
        by_cases hn0 : n < 0
        · obtain ⟨hbi, hbd, hsa⟩ := hneg hn0
          have hd' := hd hn0
          rw [if_pos (by simp [hd'.1, hd'.2])]
          simp only
          rw [advance_bounded_backward_eq _ i n bound rfl (Or.inl hbi), if_pos hn0]
          by_cases h1 : -n < i - bound
          · rw [if_pos h1, if_pos (by omega)]
            congr 2
            omega
          · rw [if_neg h1, if_neg (by omega)]
            congr 2
            omega
        · have hz : n = 0 := by omega
          subst hz
          have hb0 : advance_bounded_backward i 0 bound = (i, 0) := by
            rw [advance_bounded_backward_eq _ i 0 bound rfl (Or.inr (le_refl _))]
            simp
          split
          · simp only
            rw [hb0]
            split <;> simp
            omega
          · split <;> simp
            omega
  refine ⟨key c (fun h => (hneg h).2), ?_⟩
  rw [key { c with sized_sentinel_for := true } (fun h => (hneg h).2),
    key { c with sized_sentinel_for := false } (fun h => (hneg h).2)]

/-- Witness for C12: a bidirectional iterator at 10 asked to go back by three towards the
bound 8, without a sized sentinel, with a 32-bit difference type, stops at 8 and returns -1;
and an iterator at 10 asked to go forward by five towards the bound 12 stops at 12 and
returns 3. -/
theorem advance_n_bound_spec_witness :
    advance_n_bound ⟨false, true, false, false, true⟩ 32 0 10 (-3) 8 = some (8, -1) ∧
    advance_n_bound ⟨false, false, false, true, false⟩ 32 0 10 5 12 = some (12, 3) :=
  ⟨(advance_n_bound_spec ⟨false, true, false, false, true⟩ 32 0 10 (-3) 8 (by decide)
      (by norm_num) (by norm_num) (fun h => absurd h (by decide))
      (fun _ => ⟨by decide, rfl, rfl⟩)).1.trans (by decide),
   (advance_n_bound_spec ⟨false, false, false, true, false⟩ 32 0 10 5 12 (by decide)
      (by norm_num) (by norm_num) (fun _ => by decide)
      (fun h => absurd h (by decide))).1.trans (by decide)⟩

/-- C13: when `bound` is reachable from `i` by `k` increments, `ranges::advance(i, bound)`
ends with `i` equal to `bound` in each of its three branches: the direct assignment and the
sized-sentinel delegation to `advance(i, bound - i)` with no loop of their own, and the
increment-until-equal loop after `k + 1` tests of its condition, hence within any fuel
above `k`. -/
theorem advance_bound_spec (c : IterConcepts) (i : Int) (k fuel : Nat) (hfuel : k < fuel) :
    advance_bound c fuel i (i + k) = some (i + k) ∧
    advance_bound { c with assignable_from := true } 0 i (i + k) = some (i + k) ∧
    advance_bound { c with assignable_from := false, sized_sentinel_for := true } 0 i (i + k)
      = some (i + k) ∧
    advance_bound { c with assignable_from := false, sized_sentinel_for := false } (k + 1) i
      (i + k) = some (i + k) ∧
    advance_until (k + 1) i (i + k) = some (i + k) := by
  have hsized : ∀ d : IterConcepts, advance_n d i (i + k - i) = i + k := by
    intro d
    rw [advance_n_eq d i (i + k - i) (fun h => by omega)]
    omega
  refine ⟨?_, ?_, ?_, ?_, advance_until_eq k (k + 1) i (by omega)⟩
  · unfold advance_bound
    split
    · rfl
    · split
      · rw [hsized]
      · exact advance_until_eq k fuel i hfuel
  · simp [advance_bound]
  · simp only [advance_bound, Bool.false_eq_true, if_false, if_true]
    rw [hsized]
  · simp only [advance_bound, Bool.false_eq_true, if_false]
    exact advance_until_eq k (k + 1) i (by omega)

/-- Witness for C13: from position 10 to the bound 12, two increments away, with a sentinel
that is neither assignable nor sized, within three tests of the loop condition. -/
theorem advance_bound_spec_witness :
    advance_bound ⟨false, false, false, false, false⟩ 3 10 12 = some 12 ∧
    advance_bound ⟨false, false, false, false, false⟩ 3 10 (10 + ((2 : Nat) : Int))
      = some (10 + ((2 : Nat) : Int)) :=
  ⟨by decide,
   (advance_bound_spec ⟨false, false, false, false, false⟩ 10 2 3 (by decide)).1⟩

end Libcxx
